import Mathlib

/-!
# Systemctl state monitor: segmentation and aggregation

A shallow embedding of `plugins/inputs/systemctl/systemctl.go`:

* `AggregateSamples` turns a batch of timestamped state samples into a list of
  named intervals (`State`s);
* `AggregateStates` folds such a list into the per-state totals `AggState` and
  maintains `CurrentState` / `CurrentStateDuration`.

Go's `uint64` values are natural numbers; `+` and `-` on them are `add64` and
`sub64`, which reduce modulo `2 ^ 64`.  A Go `map[string]uint64` is a function
from keys to optional values.
-/

namespace SystemctlPlugin

/-! ## Machine arithmetic -/

/-- Addition of two `uint64` values, wrapping modulo `2 ^ 64`. -/
def add64 (a b : Nat) : Nat := (a + b) % 2 ^ 64

/-- Subtraction of two `uint64` values, wrapping modulo `2 ^ 64`. -/
def sub64 (a b : Nat) : Nat := (a + (2 ^ 64 - b % 2 ^ 64)) % 2 ^ 64

/-! ## Data model -/

/-- The constant `DurFieldSuffix`. -/
def DurFieldSuffix : String := "_dur"

/-- The constant `CountFieldSuffix`. -/
def CountFieldSuffix : String := "_count"

/-- The type `Sample`: one sample of the service state with its timestamp. -/
structure Sample where
  name : String
  timestamp : Nat
  deriving DecidableEq, Repr

/-- The type `State`: a service state and its duration. -/
structure State where
  name : String
  duration : Nat
  deriving DecidableEq, Repr

/-- A Go `map[string]uint64`: `none` is an absent key. -/
abbrev AggMap := String → Option Nat

namespace AggMap

/-- The empty map, `make(map[string]uint64)`. -/
def empty : AggMap := fun _ => none

/-- Map read `m[k]`: the zero value for an absent key. -/
def read (m : AggMap) (k : String) : Nat := (m k).getD 0

/-- Map write `m[k] = v`. -/
def write (m : AggMap) (k : String) (v : Nat) : AggMap :=
  fun k' => if k' = k then some v else m k'

end AggMap

/-- The fields of the plugin type `Systemctl` that the aggregation reads or writes. -/
structure Systemctl where
  ServiceName : String
  SampleRate : Int
  AggState : AggMap
  CurrentState : String
  CurrentStateDuration : Nat

/-- Every timestamp of the batch is a `uint64` value. -/
def WellFormed (samples : List Sample) : Prop :=
  ∀ s ∈ samples, s.timestamp < 2 ^ 64

instance (samples : List Sample) : Decidable (WellFormed samples) := by
  unfold WellFormed; infer_instance

/-! ## `AggregateSamples` -/

/-- The local variables of the loop of `AggregateSamples`. -/
structure SegVars where
  states : List State
  stateTime : Nat
  stateStartTime : Nat
  currentState : String
  deriving DecidableEq, Repr

/-- One iteration of the loop of `AggregateSamples`, at index `i` with `si = samples[i]`. -/
def segStep (lastIndex i : Nat) (si : Sample) (v : SegVars) : SegVars :=
  let v1 : SegVars :=
    if v.currentState ≠ si.name then
      let stateTime := sub64 si.timestamp v.stateStartTime
      { states := v.states ++ [{ name := v.currentState, duration := stateTime }]
        stateTime := stateTime
        stateStartTime := add64 v.stateStartTime stateTime
        currentState := si.name }
    else v
  if i = lastIndex then
    if v1.currentState ≠ si.name then
      { v1 with states := v1.states ++ [{ name := si.name, duration := 0 }] }
    else
      let stateTime := sub64 si.timestamp v1.stateStartTime
      { v1 with
        states := v1.states ++ [{ name := v1.currentState, duration := stateTime }]
        stateTime := stateTime }
  else v1

/-- The loop `for i := ...; i < sampleCount; i++` of `AggregateSamples`, run from
index `i` over the samples `samples[i:]` that are still to be visited. -/
def segLoop (lastIndex : Nat) : Nat → List Sample → SegVars → SegVars
  | _, [], v => v
  | i, si :: rest, v => segLoop lastIndex (i + 1) rest (segStep lastIndex i si v)

/-- The function `AggregateSamples`: states and their durations from a batch of samples. -/
def AggregateSamples (samples : List Sample) : Except String (List State) :=
  let sampleCount := samples.length
  if sampleCount < 2 then
    .error "2 or more samples needed for aggregation"
  else
    match samples with
    | [] => .error "2 or more samples needed for aggregation"
    | s0 :: rest =>
      let v0 : SegVars :=
        { states := [], stateTime := 0, stateStartTime := s0.timestamp, currentState := s0.name }
      let lastIndex := sampleCount - 1
      .ok (segLoop lastIndex 1 rest v0).states

/-! ## `AggregateStates` -/

/-- The function `GetKeyName`: the two strings written to a buffer one after the other. -/
def GetKeyName (currentState suffix : String) : String :=
  currentState ++ suffix

/-- One iteration of the loop of `AggregateStates` over the intervals of a batch. -/
def foldState (agg : AggMap) (st : State) : AggMap :=
  let stateDurKey := GetKeyName st.name DurFieldSuffix
  let stateCountKey := GetKeyName st.name CountFieldSuffix
  match agg stateDurKey with
  | none =>
    let agg1 := agg.write stateCountKey 1
    agg1.write stateDurKey st.duration
  | some _ =>
    let agg1 := agg.write stateCountKey (add64 (agg.read stateCountKey) 1)
    agg1.write stateDurKey (add64 (agg1.read stateDurKey) st.duration)

/-- The function `AggregateStates`: folds a batch of intervals into the receiver.
Indexing `states[0]` on an empty slice panics: the result is `none`. -/
def AggregateStates (s : Systemctl) (states : List State) (currentStateDuration : Nat) :
    Option Systemctl :=
  match states.head?, states.getLast? with
  | some first, some last =>
    let initialState := first.name
    let stateCount := states.length
    let currentState := last.name
    if initialState = currentState ∧ stateCount = 1 then
      let currentStateDuration := add64 currentStateDuration last.duration
      let stateDurKey := GetKeyName currentState DurFieldSuffix
      let stateCountKey := GetKeyName currentState CountFieldSuffix
      let agg :=
        match s.AggState stateDurKey with
        | none => (s.AggState.write stateDurKey currentStateDuration).write stateCountKey 1
        | some _ => s.AggState
      some { s with
        AggState := agg, CurrentState := currentState,
        CurrentStateDuration := currentStateDuration }
    else
      let currentStateDuration := last.duration
      let agg := states.foldl foldState s.AggState
      some { s with
        AggState := agg, CurrentState := currentState,
        CurrentStateDuration := currentStateDuration }
  | _, _ => none

/-- The state change of one collection cycle, as `Gather` runs it on a delivered batch:
segment the batch, then fold the intervals with the carried `CurrentStateDuration`.
The result is `none` when `Gather` returns the segmentation error before folding. -/
def cycle (s : Systemctl) (samples : List Sample) : Option Systemctl :=
  match AggregateSamples samples with
  | .error _ => none
  | .ok states => AggregateStates s states s.CurrentStateDuration

/-- The receiver built by `init`. -/
def initial : Systemctl :=
  { ServiceName := "nginx", SampleRate := 2, AggState := AggMap.empty,
    CurrentState := "unknown", CurrentStateDuration := 0 }

/-! ## Specification-side definitions -/

/-- Sum of the durations of a list of intervals. -/
def totalDuration (states : List State) : Nat :=
  (states.map State.duration).sum

/-- Number of name transitions in a batch: indices whose name differs from the
name of the sample before. -/
def transitions : List Sample → Nat
  | a :: b :: rest => (if a.name ≠ b.name then 1 else 0) + transitions (b :: rest)
  | _ => 0

/-- Number of intervals of a batch that carry the given name. -/
def visits (name : String) (states : List State) : Nat :=
  (states.filter (fun st => st.name = name)).length

/-- Sum of the durations of the intervals of a batch that carry the given name. -/
def timeIn (name : String) (states : List State) : Nat :=
  totalDuration (states.filter (fun st => st.name = name))

/-- A map in which a state has a `_count` entry only if it has a `_dur` entry. -/
def CountHasDur (agg : AggMap) : Prop :=
  ∀ name : String, agg (GetKeyName name DurFieldSuffix) = none →
    agg (GetKeyName name CountFieldSuffix) = none

/-- The timestamps of a batch are non-decreasing. -/
def NonDecreasing : List Sample → Prop
  | a :: b :: rest => a.timestamp ≤ b.timestamp ∧ NonDecreasing (b :: rest)
  | _ => True

/-- Decision procedure for `NonDecreasing`. -/
def decNonDecreasing : (samples : List Sample) → Decidable (NonDecreasing samples)
  | [] => isTrue (by simp [NonDecreasing])
  | [_] => isTrue (by simp [NonDecreasing])
  | a :: b :: rest =>
    match Nat.decLe a.timestamp b.timestamp, decNonDecreasing (b :: rest) with
    | isTrue h1, isTrue h2 => isTrue (by rw [NonDecreasing]; exact ⟨h1, h2⟩)
    | isFalse h1, _ => isFalse (by rw [NonDecreasing]; exact fun h => h1 h.1)
    | _, isFalse h2 => isFalse (by rw [NonDecreasing]; exact fun h => h2 h.2)

instance (samples : List Sample) : Decidable (NonDecreasing samples) :=
  decNonDecreasing samples

/-- Closed form of the intervals that the loop of `AggregateSamples` appends while it
visits `rest`, when the open run is named `cur` and started at `start`. -/
def intervalsFrom (cur : String) (start : Nat) : List Sample → List State
  | [] => []
  | [s] =>
    if cur ≠ s.name then
      [{ name := cur, duration := sub64 s.timestamp start }, { name := s.name, duration := 0 }]
    else [{ name := cur, duration := sub64 s.timestamp start }]
  | s :: s' :: rest =>
    if cur ≠ s.name then
      { name := cur, duration := sub64 s.timestamp start } ::
        intervalsFrom s.name s.timestamp (s' :: rest)
    else intervalsFrom cur start (s' :: rest)

/-- Every value stored in the map is a `uint64` value. -/
def AggWellFormed (agg : AggMap) : Prop :=
  ∀ k v, agg k = some v → v < 2 ^ 64

/-- Every duration of the batch is a `uint64` value. -/
def StatesWellFormed (states : List State) : Prop :=
  ∀ st ∈ states, st.duration < 2 ^ 64

/-- Consecutive folds on one receiver, each called as `Gather` calls `AggregateStates`:
with the `CurrentStateDuration` left by the fold before. -/
def foldBatches (s : Systemctl) : List (List State) → Option Systemctl
  | [] => some s
  | batch :: batches =>
    match AggregateStates s batch s.CurrentStateDuration with
    | none => none
    | some s' => foldBatches s' batches

instance (states : List State) : Decidable (StatesWellFormed states) := by
  unfold StatesWellFormed; infer_instance

/-- The fourth batch of `TestAggregateSamples`. -/
def testSamples : List Sample :=
  [⟨"active", 0⟩, ⟨"active", 2⟩, ⟨"inactive", 4⟩, ⟨"active", 6⟩, ⟨"failed", 8⟩, ⟨"inactive", 10⟩]

/-- The intervals expected by `TestAggregateSamples` for its fourth batch. -/
def testStates : List State :=
  [⟨"active", 4⟩, ⟨"inactive", 2⟩, ⟨"active", 2⟩, ⟨"failed", 2⟩, ⟨"inactive", 0⟩]

/-- The receiver that `AssertStates` builds: an empty `AggState` and the given
current state and duration. -/
def testReceiver (initialState : String) (initialStateTime : Nat) : Systemctl :=
  { ServiceName := "", SampleRate := 2, AggState := AggMap.empty,
    CurrentState := initialState, CurrentStateDuration := initialStateTime }

/-! ## The segmentation algorithm as the specification words it -/

/-- The variables of the IntervalSegmenter of the specification: the intervals closed so
far, the start of the open interval and its name. -/
structure SpecVars where
  intervals : List State
  start : Nat
  currentState : String
  deriving DecidableEq, Repr

/-- The IntervalSegmenter of the specification on one scanned sample. On a name
transition it closes the open interval with duration `timestamp - start` and sets
`start` to the transition's timestamp; on the last sample it applies the
trailing-sample rule: duration 0 for the interval just opened by a transition,
`timestamp - start` for the open interval otherwise. -/
def specScan (isLast : Bool) (si : Sample) (v : SpecVars) : SpecVars :=
  if si.name ≠ v.currentState then
    let closed : SpecVars :=
      { intervals :=
          v.intervals ++ [{ name := v.currentState, duration := sub64 si.timestamp v.start }]
        start := si.timestamp
        currentState := si.name }
    if isLast then
      { closed with intervals := closed.intervals ++ [{ name := si.name, duration := 0 }] }
    else closed
  else if isLast then
    { v with
      intervals :=
        v.intervals ++ [{ name := v.currentState, duration := sub64 si.timestamp v.start }] }
  else v

/-- The IntervalSegmenter of the specification scanning the samples from index 1 onward. -/
def specScanAll : List Sample → SpecVars → SpecVars
  | [], v => v
  | [s], v => specScan true s v
  | s :: s' :: rest, v => specScanAll (s' :: rest) (specScan false s v)

/-- The IntervalSegmenter of the specification: it fails with InsufficientSamples on
fewer than 2 samples, and otherwise starts from the first sample's name and timestamp. -/
def SpecIntervalSegmenter (samples : List Sample) : Except String (List State) :=
  match samples with
  | [] => .error "InsufficientSamples"
  | [_] => .error "InsufficientSamples"
  | s0 :: rest =>
    .ok (specScanAll rest
      { intervals := [], start := s0.timestamp, currentState := s0.name }).intervals

/-! ## `Gather` -/

/-- A value of the field map handed to the sink: Go's `interface{}` holding either the
`string` `CurrentState` or a `uint64`. -/
inductive FieldValue where
  | str (value : String)
  | uint (value : Nat)
  deriving DecidableEq, Repr

/-- Modelled from the spec: one record of the metrics sink, `record(measurement, fields,
tags)`; the sink's type `telegraf.Accumulator` is declared outside the plugin's sources. -/
structure Metric where
  measurement : String
  fields : String → Option FieldValue
  tags : String → Option String

/-- Modelled from the spec: the metrics sink `telegraf.Accumulator`, of which `Gather`
uses only `AddFields`; it is the list of the records it received, oldest first. -/
abbrev Accumulator := List Metric

/-- Modelled from the spec: the sink operation `AddFields`, which records one
measurement with its fields and tags. -/
def AddFields (acc : Accumulator) (measurement : String)
    (fields : String → Option FieldValue) (tags : String → Option String) : Accumulator :=
  acc ++ [{ measurement := measurement, fields := fields, tags := tags }]

/-- The field map that `Gather` builds from the receiver: the map literal with
`current_state_time` and `current_state`, then `fields[k] = s.AggState[k]` for every key
of `AggState`. -/
def gatherFields (s : Systemctl) : String → Option FieldValue :=
  let fields : String → Option FieldValue := fun k =>
    if k = "current_state_time" then some (.uint s.CurrentStateDuration)
    else if k = "current_state" then some (.str s.CurrentState)
    else none
  fun k =>
    match s.AggState k with
    | some v => some (.uint v)
    | none => fields k

/-- What a call of `Gather` leaves behind: the receiver, the sink and the returned error. -/
structure GatherResult where
  receiver : Systemctl
  acc : Accumulator
  err : Option String

/-- The function `Gather`, on the batch `samples` that the sampling loop delivers on the
`out` channel. The result is `none` if `AggregateStates` panics. -/
def Gather (s : Systemctl) (samples : List Sample) (acc : Accumulator) : Option GatherResult :=
  match AggregateSamples samples with
  | .error err => some { receiver := s, acc := acc, err := some err }
  | .ok states =>
    match AggregateStates s states s.CurrentStateDuration with
    | none => none
    | some s' =>
      let fields := gatherFields s'
      let tags : String → Option String := fun k =>
        if k = "resource" then some s'.ServiceName else none
      some { receiver := s', acc := AddFields acc "service_config_state" fields tags,
             err := none }

/-- Every key of the map is the `_dur` or the `_count` key of some state name. -/
def KeysFromStates (agg : AggMap) : Prop :=
  ∀ k, agg k ≠ none →
    ∃ name : String, k = GetKeyName name DurFieldSuffix ∨ k = GetKeyName name CountFieldSuffix

/-! ## `CollectSamples` -/

/-- The cases of the `select` statement of `CollectSamples`: `default`, with the sample
that the sampler returns, a receive on `collect`, and a receive on `done`. -/
inductive LoopEvent where
  | tick (sample : Sample)
  | collect
  | done
  deriving DecidableEq, Repr

/-- Whether the goroutine of `CollectSamples` is still in its loop, has returned, or has
stopped with a run-time panic. -/
inductive LoopStatus where
  | running
  | returned
  | panicked
  deriving DecidableEq, Repr

/-- The goroutine of `CollectSamples`: its buffer `samples`, the batches it has sent on
the channel `out` (oldest first), and its status. -/
structure SamplingLoop where
  samples : List Sample
  out : List (List Sample)
  status : LoopStatus
  deriving DecidableEq, Repr

/-- One pass through the `select` statement of `CollectSamples`. The `collect` case sends
the buffer on `out` and then reads `samples[len(samples)-1]`, which panics on an empty
buffer. -/
def loopStep (l : SamplingLoop) (e : LoopEvent) : SamplingLoop :=
  match l.status with
  | .running =>
    match e with
    | .tick sample => { l with samples := l.samples ++ [sample] }
    | .collect =>
      let out := l.out ++ [l.samples]
      match l.samples.getLast? with
      | none => { l with out := out, status := .panicked }
      | some lastSample => { samples := [lastSample], out := out, status := .running }
    | .done => { l with status := .returned }
  | .returned => l
  | .panicked => l

/-- The loop of `CollectSamples` continued from a given state. -/
def runLoop (l : SamplingLoop) (events : List LoopEvent) : SamplingLoop :=
  events.foldl loopStep l

/-- The function `CollectSamples`: the loop run from `samples := make([]Sample, 0)`. -/
def CollectSamples (events : List LoopEvent) : SamplingLoop :=
  runLoop { samples := [], out := [], status := .running } events

/-! ## Sequences of folds -/

/-- A sequence of calls of `AggregateStates` on one receiver, each with its batch of
intervals and the prior duration passed in. -/
def foldRun (s : Systemctl) : List (List State × Nat) → Option Systemctl
  | [] => some s
  | (states, p) :: rest =>
    match AggregateStates s states p with
    | none => none
    | some s' => foldRun s' rest

/-- The map written by the single-interval branch of `AggregateStates` for the state
`name` and the extended duration `v`. -/
def firstVisit (agg : AggMap) (name : String) (v : Nat) : AggMap :=
  match agg (GetKeyName name DurFieldSuffix) with
  | none => (agg.write (GetKeyName name DurFieldSuffix) v).write (GetKeyName name CountFieldSuffix) 1
  | some _ => agg

/-- Folding the batch into the map overflows neither a count nor a duration. -/
def NoOverflow (agg : AggMap) (states : List State) : Prop :=
  ∀ name : String,
    agg.read (GetKeyName name CountFieldSuffix) + visits name states < 2 ^ 64 ∧
    agg.read (GetKeyName name DurFieldSuffix) + timeIn name states < 2 ^ 64

/-- A state has a `_dur` entry exactly when it has a `_count` entry. -/
def WellPaired (agg : AggMap) : Prop :=
  ∀ name : String,
    agg (GetKeyName name DurFieldSuffix) ≠ none ↔ agg (GetKeyName name CountFieldSuffix) ≠ none

/-- Every `_count` entry of the map is at least 1. -/
def CountsPositive (agg : AggMap) : Prop :=
  ∀ (name : String) (c : Nat), agg (GetKeyName name CountFieldSuffix) = some c → 1 ≤ c

/-- Folding the batch into the map overflows no count. -/
def CountsFit (agg : AggMap) (states : List State) : Prop :=
  ∀ name : String, agg.read (GetKeyName name CountFieldSuffix) + visits name states < 2 ^ 64

/-- No fold of the sequence overflows a count. -/
def CountsFitRun (s : Systemctl) : List (List State × Nat) → Prop
  | [] => True
  | (states, p) :: rest =>
    CountsFit s.AggState states ∧
      ∀ s', AggregateStates s states p = some s' → CountsFitRun s' rest

/-! ## Arithmetic lemmas -/

theorem sub64_congr_right (t a b : Nat) (h : a % 2 ^ 64 = b % 2 ^ 64) :
    sub64 t a = sub64 t b := by
  unfold sub64; rw [h]

theorem add64_sub64_mod (a t : Nat) : add64 a (sub64 t a) % 2 ^ 64 = t % 2 ^ 64 := by
  unfold add64 sub64; omega

theorem sub64_self (t : Nat) : sub64 t t = 0 := by
  unfold sub64; omega

theorem sub64_self_mod (a t : Nat) : sub64 t (add64 a (sub64 t a)) = 0 := by
  rw [sub64_congr_right t _ t (add64_sub64_mod a t)]; exact sub64_self t

theorem sub64_of_le (t a : Nat) (h : a ≤ t) (ht : t < 2 ^ 64) : sub64 t a = t - a := by
  unfold sub64; omega

/-! ## The loop of `AggregateSamples` -/

theorem segLoop_states (lastIndex : Nat) (rest : List Sample) :
    ∀ (i : Nat) (v : SegVars) (start : Nat), i + rest.length = lastIndex + 1 →
      v.stateStartTime % 2 ^ 64 = start % 2 ^ 64 →
      (segLoop lastIndex i rest v).states =
        v.states ++ intervalsFrom v.currentState start rest := by
  induction rest with
  | nil => intro i v start _ _; simp [segLoop, intervalsFrom]
  | cons s rest ih =>
    intro i v start hi hs
    cases rest with
    | nil =>
      have hlast : i = lastIndex := by simpa using hi
      have e1 := sub64_congr_right s.timestamp _ _ hs
      by_cases hc : v.currentState = s.name
      · simp [segLoop, segStep, intervalsFrom, hlast, hc, e1]
      · have e2 := sub64_self_mod v.stateStartTime s.timestamp
        rw [e1] at e2
        simp [segLoop, segStep, intervalsFrom, hlast, hc, e1, e2]
    | cons s' rest =>
      have hne : i ≠ lastIndex := by simp at hi; omega
      have e1 := sub64_congr_right s.timestamp _ _ hs
      rw [segLoop]
      by_cases hc : v.currentState = s.name
      · have hstep : segStep lastIndex i s v = v := by simp [segStep, hne, hc]
        rw [hstep, ih (i + 1) v start (by simp at hi ⊢; omega) hs]
        simp [intervalsFrom, hc]
      · have hstep : segStep lastIndex i s v =
            { states := v.states ++ [{ name := v.currentState,
                                       duration := sub64 s.timestamp v.stateStartTime }]
              stateTime := sub64 s.timestamp v.stateStartTime
              stateStartTime := add64 v.stateStartTime (sub64 s.timestamp v.stateStartTime)
              currentState := s.name } := by
          simp [segStep, hne, hc]
        rw [hstep, ih (i + 1) _ s.timestamp (by simp at hi ⊢; omega)
          (add64_sub64_mod _ _)]
        simp [intervalsFrom, hc, e1]

theorem AggregateSamples_cons (s0 : Sample) (rest : List Sample) (hne : rest ≠ []) :
    AggregateSamples (s0 :: rest) = .ok (intervalsFrom s0.name s0.timestamp rest) := by
  have hlen : 0 < rest.length := List.length_pos.mpr hne
  have h := segLoop_states rest.length rest 1
    { states := [], stateTime := 0, stateStartTime := s0.timestamp, currentState := s0.name }
    s0.timestamp (by omega) rfl
  have h2 : ¬ (rest.length + 1 < 2) := by omega
  simp [AggregateSamples, h, h2]

theorem exists_cons_of_two_le (samples : List Sample) (hlen : 2 ≤ samples.length) :
    ∃ s0 rest, rest ≠ [] ∧ samples = s0 :: rest := by
  match samples, hlen with
  | s0 :: s1 :: rest, _ => exact ⟨s0, s1 :: rest, by simp, rfl⟩

/-! ## Properties of the closed form -/

theorem getLast?_cons_of_ne_nil {α : Type} (a : α) (l : List α) (h : l ≠ []) :
    (a :: l).getLast? = l.getLast? := by
  cases l with
  | nil => exact absurd rfl h
  | cons b l => simp

theorem intervalsFrom_cons (cur : String) (start : Nat) (s : Sample) (l : List Sample)
    (h : l ≠ []) :
    intervalsFrom cur start (s :: l) =
      if cur ≠ s.name then
        { name := cur, duration := sub64 s.timestamp start } ::
          intervalsFrom s.name s.timestamp l
      else intervalsFrom cur start l := by
  cases l with
  | nil => exact absurd rfl h
  | cons b l => simp [intervalsFrom]

theorem intervalsFrom_ne_nil (rest : List Sample) :
    ∀ (cur : String) (start : Nat), rest ≠ [] → intervalsFrom cur start rest ≠ [] := by
  induction rest with
  | nil => intro _ _ h; exact absurd rfl h
  | cons s rest ih =>
    intro cur start _
    cases rest with
    | nil => by_cases hc : cur = s.name <;> simp [intervalsFrom, hc]
    | cons s' rest =>
      by_cases hc : cur = s.name
      · simpa [intervalsFrom, hc] using ih s.name start (by simp)
      · simp [intervalsFrom, hc]

theorem intervalsFrom_names (rest : List Sample) :
    ∀ (cur : String) (start : Nat), rest ≠ [] →
      (intervalsFrom cur start rest).map State.name =
        List.destutter' (fun a b => a ≠ b) cur (rest.map Sample.name) := by
  induction rest with
  | nil => intro _ _ h; exact absurd rfl h
  | cons s rest ih =>
    intro cur start _
    cases rest with
    | nil => by_cases hc : cur = s.name <;> simp [intervalsFrom, List.destutter', hc]
    | cons s' rest =>
      by_cases hc : cur = s.name
      · have := ih cur start (by simp)
        simpa [intervalsFrom, List.destutter', hc] using this
      · have := ih s.name s.timestamp (by simp)
        simpa [intervalsFrom, List.destutter', hc] using this

theorem transitions_congr (a b : Sample) (l : List Sample) (h : a.name = b.name) :
    transitions (a :: l) = transitions (b :: l) := by
  cases l with
  | nil => simp [transitions]
  | cons c l => simp [transitions, h]

theorem intervalsFrom_length (rest : List Sample) :
    ∀ c : Sample, rest ≠ [] →
      (intervalsFrom c.name c.timestamp rest).length = transitions (c :: rest) + 1 := by
  induction rest with
  | nil => intro _ h; exact absurd rfl h
  | cons s rest ih =>
    intro c _
    cases rest with
    | nil => by_cases hc : c.name = s.name <;> simp [intervalsFrom, transitions, hc]
    | cons s' rest =>
      by_cases hc : c.name = s.name
      · have h1 := ih c (by simp)
        have h2 := transitions_congr c s (s' :: rest) hc
        have h3 : intervalsFrom c.name c.timestamp (s :: s' :: rest) =
            intervalsFrom c.name c.timestamp (s' :: rest) := by simp [intervalsFrom, hc]
        have h4 : transitions (c :: s :: s' :: rest) = transitions (s :: s' :: rest) := by
          conv_lhs => rw [transitions]
          simp [hc]
        rw [h3, h1, h2, h4]
      · have h1 := ih s (by simp)
        simp only [intervalsFrom, hc, ne_eq, not_false_eq_true, if_true, List.length_cons, h1]
        have h4 : transitions (c :: s :: s' :: rest) = 1 + transitions (s :: s' :: rest) := by
          conv_lhs => rw [transitions]
          simp [hc]
        rw [h4]; omega

theorem intervalsFrom_total (rest : List Sample) :
    ∀ c : Sample, NonDecreasing (c :: rest) →
      (∀ s ∈ rest, s.timestamp < 2 ^ 64) →
      ∀ last, rest.getLast? = some last →
        totalDuration (intervalsFrom c.name c.timestamp rest) + c.timestamp = last.timestamp := by
  induction rest with
  | nil => intro _ _ _ last h; simp at h
  | cons s rest ih =>
    intro c hch hwf last hlast
    rw [NonDecreasing] at hch
    have hcs : c.timestamp ≤ s.timestamp := hch.1
    have hs : s.timestamp < 2 ^ 64 := hwf s (by simp)
    have e := sub64_of_le s.timestamp c.timestamp hcs hs
    cases rest with
    | nil =>
      have : s = last := by simpa using hlast
      subst this
      by_cases hc : c.name = s.name <;> simp [intervalsFrom, totalDuration, hc, e] <;> omega
    | cons s' rest =>
      have hch2 := hch.2
      have hch2' := hch2
      rw [NonDecreasing] at hch2'
      have hss : s.timestamp ≤ s'.timestamp := hch2'.1
      have hwf2 : ∀ x ∈ s' :: rest, x.timestamp < 2 ^ 64 :=
        fun x hx => hwf x (List.mem_cons_of_mem _ hx)
      have hlast2 : (s' :: rest).getLast? = some last := by simpa using hlast
      by_cases hc : c.name = s.name
      · have hch3 : NonDecreasing (c :: s' :: rest) := by
          rw [NonDecreasing]; exact ⟨le_trans hcs hss, hch2'.2⟩
        have := ih c hch3 hwf2 last hlast2
        simpa [intervalsFrom, hc] using this
      · have := ih s hch2 hwf2 last hlast2
        simp only [totalDuration] at this ⊢
        simp [intervalsFrom, hc, e]
        omega

theorem intervalsFrom_last_name (rest : List Sample) :
    ∀ (cur : String) (start : Nat),
      (intervalsFrom cur start rest).getLast?.map State.name =
        rest.getLast?.map Sample.name := by
  induction rest with
  | nil => intro _ _; simp [intervalsFrom]
  | cons s rest ih =>
    intro cur start
    cases rest with
    | nil => by_cases hc : cur = s.name <;> simp [intervalsFrom, hc]
    | cons s' rest =>
      by_cases hc : cur = s.name
      · simpa [intervalsFrom, hc] using ih cur start
      · have hne := intervalsFrom_ne_nil (s' :: rest) s.name s.timestamp (by simp)
        have := ih s.name s.timestamp
        simp only [intervalsFrom, hc, ne_eq, not_false_eq_true, if_true]
        rw [getLast?_cons_of_ne_nil _ _ hne, this]
        simp

theorem intervalsFrom_run (tail : List Sample) :
    ∀ (cur : String) (start : Nat), (∀ s ∈ tail, s.name = cur) →
      ∀ last, tail.getLast? = some last →
        intervalsFrom cur start tail =
          [{ name := cur, duration := sub64 last.timestamp start }] := by
  induction tail with
  | nil => intro _ _ _ last h; simp at h
  | cons s tail ih =>
    intro cur start hall last hlast
    have hc : cur = s.name := (hall s (by simp)).symm
    cases tail with
    | nil =>
      have : s = last := by simpa using hlast
      subst this
      simp [intervalsFrom, hc]
    | cons s' tail =>
      have := ih cur start (fun x hx => hall x (List.mem_cons_of_mem _ hx)) last
        (by simpa using hlast)
      simpa [intervalsFrom, hc] using this

theorem intervalsFrom_getLast (pre : List Sample) :
    ∀ (c opener : Sample) (tail : List Sample) (last : Sample),
      (∀ s ∈ tail, s.name = opener.name) →
      (∀ p, (c :: pre).getLast? = some p → p.name ≠ opener.name) →
      (opener :: tail).getLast? = some last →
      (intervalsFrom c.name c.timestamp (pre ++ opener :: tail)).getLast? =
        some { name := opener.name, duration := sub64 last.timestamp opener.timestamp } := by
  induction pre with
  | nil =>
    intro c opener tail last hall hpre hlast
    have hc : c.name ≠ opener.name := hpre c (by simp)
    cases tail with
    | nil =>
      have : opener = last := by simpa using hlast
      subst this
      simp [intervalsFrom, hc, sub64_self]
    | cons t tail =>
      have hrun := intervalsFrom_run (t :: tail) opener.name opener.timestamp hall last
        (by simpa using hlast)
      simp [intervalsFrom, hc, hrun]
  | cons x pre ih =>
    intro c opener tail last hall hpre hlast
    have hne : pre ++ opener :: tail ≠ [] := by simp
    rw [List.cons_append, intervalsFrom_cons _ _ _ _ hne]
    by_cases hc : c.name = x.name
    · have hpre2 : ∀ p, (c :: pre).getLast? = some p → p.name ≠ opener.name := by
        intro p hp
        cases pre with
        | nil =>
          have hpc : c = p := by simpa using hp
          have := hpre x (by simp)
          rw [← hpc, hc]; exact this
        | cons y pre => exact hpre p (by simpa using hp)
      simpa [hc] using ih c opener tail last hall hpre2 hlast
    · have hpre2 : ∀ p, (x :: pre).getLast? = some p → p.name ≠ opener.name := by
        intro p hp
        exact hpre p (by simpa using hp)
      have hne2 := intervalsFrom_ne_nil (pre ++ opener :: tail) x.name x.timestamp hne
      simp only [hc, ne_eq, not_false_eq_true, if_true]
      rw [getLast?_cons_of_ne_nil _ _ hne2]
      exact ih x opener tail last hall hpre2 hlast

theorem destutter'_head? (cur : String) (l : List String) :
    (List.destutter' (fun a b => a ≠ b) cur l).head? = some cur := by
  induction l generalizing cur with
  | nil => simp [List.destutter']
  | cons a l ih => by_cases h : cur = a <;> simp [List.destutter', h, ih]

theorem AggregateSamples_final (samples pre tail : List Sample) (opener last : Sample)
    (hlen : 2 ≤ samples.length) (hsplit : samples = pre ++ opener :: tail)
    (hall : ∀ s ∈ tail, s.name = opener.name)
    (hpre : ∀ p, pre.getLast? = some p → p.name ≠ opener.name)
    (hlast : (opener :: tail).getLast? = some last) :
    ∃ states, AggregateSamples samples = .ok states ∧
      states.getLast? =
        some { name := opener.name, duration := sub64 last.timestamp opener.timestamp } := by
  subst hsplit
  cases pre with
  | nil =>
    cases tail with
    | nil => simp at hlen
    | cons t tail =>
      refine ⟨_, AggregateSamples_cons opener (t :: tail) (by simp), ?_⟩
      rw [intervalsFrom_run (t :: tail) opener.name opener.timestamp hall last
        (by simpa using hlast)]
      rfl
  | cons c pre =>
    refine ⟨_, AggregateSamples_cons c (pre ++ opener :: tail) (by simp), ?_⟩
    exact intervalsFrom_getLast pre c opener tail last hall hpre hlast

/-! ## Claims about `AggregateSamples` -/

/-- C1: for every batch of at least 2 samples whose timestamps are `uint64` values in
non-decreasing order, `AggregateSamples` succeeds and the durations of the returned
intervals sum to the last sample's timestamp minus the first sample's timestamp; when
the last sample is a transition, the final interval contributes duration 0. -/
theorem AggregateSamples_total_duration (samples : List Sample)
    (hlen : 2 ≤ samples.length) (hwf : WellFormed samples) (hmono : NonDecreasing samples) :
    ∃ first last states,
      samples.head? = some first ∧ samples.getLast? = some last ∧
      AggregateSamples samples = .ok states ∧
      first.timestamp ≤ last.timestamp ∧
      totalDuration states = last.timestamp - first.timestamp ∧
      (∀ pre prev, samples = pre ++ [prev, last] → prev.name ≠ last.name →
        states.getLast?.map State.duration = some 0) := by
  obtain ⟨s0, rest, hne, rfl⟩ := exists_cons_of_two_le samples hlen
  obtain ⟨last, hl⟩ : ∃ last, rest.getLast? = some last :=
    ⟨rest.getLast hne, List.getLast?_eq_getLast _ hne⟩
  have htot := intervalsFrom_total rest s0 hmono
    (fun x hx => hwf x (List.mem_cons_of_mem _ hx)) last hl
  refine ⟨s0, last, _, rfl, ?_, AggregateSamples_cons s0 rest hne, by omega, by omega, ?_⟩
  · rw [getLast?_cons_of_ne_nil _ _ hne]; exact hl
  · intro pre prev hsplit hname
    obtain ⟨states, hok, hfin⟩ := AggregateSamples_final (s0 :: rest) (pre ++ [prev]) []
      last last hlen (by simp [hsplit]) (by simp)
      (by intro p hp; simp at hp; rw [← hp]; exact hname) (by simp)
    rw [AggregateSamples_cons s0 rest hne] at hok
    cases hok
    rw [hfin]; simp [sub64_self]

/-- Witness for C1 on the batch `(active,0) (active,2) (inactive,4) (active,6)`. -/
theorem AggregateSamples_total_duration_witness :
    ∃ first last states,
      [(⟨"active", 0⟩ : Sample), ⟨"active", 2⟩, ⟨"inactive", 4⟩, ⟨"active", 6⟩].head? =
        some first ∧
      [(⟨"active", 0⟩ : Sample), ⟨"active", 2⟩, ⟨"inactive", 4⟩, ⟨"active", 6⟩].getLast? =
        some last ∧
      AggregateSamples [⟨"active", 0⟩, ⟨"active", 2⟩, ⟨"inactive", 4⟩, ⟨"active", 6⟩] =
        .ok states ∧
      first.timestamp ≤ last.timestamp ∧
      totalDuration states = last.timestamp - first.timestamp ∧
      (∀ pre prev,
        [(⟨"active", 0⟩ : Sample), ⟨"active", 2⟩, ⟨"inactive", 4⟩, ⟨"active", 6⟩] =
          pre ++ [prev, last] → prev.name ≠ last.name →
        states.getLast?.map State.duration = some 0) :=
  AggregateSamples_total_duration
    [⟨"active", 0⟩, ⟨"active", 2⟩, ⟨"inactive", 4⟩, ⟨"active", 6⟩]
    (by decide) (by decide) (by decide)

/-- C2: `AggregateSamples` returns an error, and no intervals, exactly when the batch has
fewer than 2 samples: it fails on the empty batch and on every 1-sample batch, and it
returns intervals for every batch of 2 or more samples. -/
theorem AggregateSamples_error_iff (samples : List Sample) :
    ((∃ e, AggregateSamples samples = .error e) ↔ samples.length < 2) ∧
    ((∃ states, AggregateSamples samples = .ok states) ↔ 2 ≤ samples.length) ∧
    (∃ e, AggregateSamples [] = .error e) ∧
    (∀ s : Sample, ∃ e, AggregateSamples [s] = .error e) := by
  have hsmall : ∀ l : List Sample, l.length < 2 →
      AggregateSamples l = .error "2 or more samples needed for aggregation" := by
    intro l hl
    simp [AggregateSamples, hl]
  refine ⟨?_, ?_, ⟨_, hsmall [] (by simp)⟩, fun s => ⟨_, hsmall [s] (by simp)⟩⟩
  · constructor
    · rintro ⟨e, he⟩
      by_contra hlen
      obtain ⟨s0, rest, hne, rfl⟩ := exists_cons_of_two_le samples (by omega)
      rw [AggregateSamples_cons s0 rest hne] at he
      cases he
    · intro hlen
      exact ⟨_, hsmall samples hlen⟩
  · constructor
    · rintro ⟨states, hs⟩
      by_contra hlen
      rw [hsmall samples (by omega)] at hs
      cases hs
    · intro hlen
      obtain ⟨s0, rest, hne, rfl⟩ := exists_cons_of_two_le samples hlen
      exact ⟨_, AggregateSamples_cons s0 rest hne⟩

/-- C3: trailing-sample rule. For every batch of at least 2 samples `AggregateSamples`
succeeds and its final interval carries the last sample's name. If the last sample's
name differs from the name of the sample before it, the final interval has duration 0.
Otherwise, with `opener` the sample that opened the final run (the most recent
transition sample, or the first sample when there was no transition), the final
interval's duration is the `uint64` difference of the last sample's timestamp and the
opener's, which is the plain difference when the two are ordered `uint64` values. -/
theorem AggregateSamples_trailing_rule (samples : List Sample) (hlen : 2 ≤ samples.length) :
    ∃ last states fin,
      samples.getLast? = some last ∧
      AggregateSamples samples = .ok states ∧
      states.getLast? = some fin ∧
      fin.name = last.name ∧
      (∀ pre prev, samples = pre ++ [prev, last] → last.name ≠ prev.name →
        fin.duration = 0) ∧
      (∀ pre opener run, samples = pre ++ opener :: (run ++ [last]) →
        (∀ s ∈ run ++ [last], s.name = opener.name) →
        (∀ p, pre.getLast? = some p → p.name ≠ opener.name) →
        fin.duration = sub64 last.timestamp opener.timestamp ∧
        (opener.timestamp ≤ last.timestamp → last.timestamp < 2 ^ 64 →
          fin.duration = last.timestamp - opener.timestamp)) := by
  obtain ⟨s0, rest, hne, rfl⟩ := exists_cons_of_two_le samples hlen
  obtain ⟨last, hl⟩ : ∃ last, rest.getLast? = some last :=
    ⟨rest.getLast hne, List.getLast?_eq_getLast _ hne⟩
  have hok := AggregateSamples_cons s0 rest hne
  have hname := intervalsFrom_last_name rest s0.name s0.timestamp
  rw [hl] at hname
  obtain ⟨fin, hfin⟩ : ∃ fin, (intervalsFrom s0.name s0.timestamp rest).getLast? = some fin := by
    cases h : (intervalsFrom s0.name s0.timestamp rest).getLast? with
    | none => simp [h] at hname
    | some fin => exact ⟨fin, rfl⟩
  refine ⟨last, _, fin, ?_, hok, hfin, ?_, ?_, ?_⟩
  · rw [getLast?_cons_of_ne_nil _ _ hne]; exact hl
  · simpa [hfin] using hname
  · intro pre prev hsplit hdiff
    obtain ⟨states, hok2, hfin2⟩ := AggregateSamples_final (s0 :: rest) (pre ++ [prev]) []
      last last hlen (by simp [hsplit]) (by simp)
      (by intro p hp; simp at hp; rw [← hp]; exact fun h => hdiff h.symm) (by simp)
    rw [hok] at hok2
    cases hok2
    rw [hfin] at hfin2
    cases hfin2
    exact sub64_self _
  · intro pre opener run hsplit hall hpre
    obtain ⟨states, hok2, hfin2⟩ := AggregateSamples_final (s0 :: rest) pre (run ++ [last])
      opener last hlen hsplit hall hpre
      (by rw [getLast?_cons_of_ne_nil _ _ (by simp)]; simp)
    rw [hok] at hok2
    cases hok2
    rw [hfin] at hfin2
    cases hfin2
    exact ⟨rfl, fun h1 h2 => sub64_of_le _ _ h1 h2⟩

/-- Witness for C3 on the batch `(active,0) (failed,2)`. -/
theorem AggregateSamples_trailing_rule_witness :
    ∃ last states fin,
      [(⟨"active", 0⟩ : Sample), ⟨"failed", 2⟩].getLast? = some last ∧
      AggregateSamples [⟨"active", 0⟩, ⟨"failed", 2⟩] = .ok states ∧
      states.getLast? = some fin ∧
      fin.name = last.name ∧
      (∀ pre prev, [(⟨"active", 0⟩ : Sample), ⟨"failed", 2⟩] = pre ++ [prev, last] →
        last.name ≠ prev.name → fin.duration = 0) ∧
      (∀ pre opener run,
        [(⟨"active", 0⟩ : Sample), ⟨"failed", 2⟩] = pre ++ opener :: (run ++ [last]) →
        (∀ s ∈ run ++ [last], s.name = opener.name) →
        (∀ p, pre.getLast? = some p → p.name ≠ opener.name) →
        fin.duration = sub64 last.timestamp opener.timestamp ∧
        (opener.timestamp ≤ last.timestamp → last.timestamp < 2 ^ 64 →
          fin.duration = last.timestamp - opener.timestamp)) :=
  AggregateSamples_trailing_rule [⟨"active", 0⟩, ⟨"failed", 2⟩] (by decide)

/-- C4: for every batch of at least 2 samples, the names of the intervals returned by
`AggregateSamples`, in order, are the samples' names with adjacent duplicates collapsed:
there is one interval more than there are name transitions, the first interval is named
after the first sample, the last after the last sample, and no two adjacent intervals
share a name. -/
theorem AggregateSamples_names (samples : List Sample) (hlen : 2 ≤ samples.length) :
    ∃ states, AggregateSamples samples = .ok states ∧
      states.map State.name =
        List.destutter (fun a b => a ≠ b) (samples.map Sample.name) ∧
      states.length = transitions samples + 1 ∧
      states.head?.map State.name = samples.head?.map Sample.name ∧
      states.getLast?.map State.name = samples.getLast?.map Sample.name ∧
      List.Chain' (fun a b => a ≠ b) (states.map State.name) := by
  obtain ⟨s0, rest, hne, rfl⟩ := exists_cons_of_two_le samples hlen
  have hnames := intervalsFrom_names rest s0.name s0.timestamp hne
  refine ⟨_, AggregateSamples_cons s0 rest hne, ?_, intervalsFrom_length rest s0 hne, ?_, ?_, ?_⟩
  · simpa [List.destutter] using hnames
  · have := destutter'_head? s0.name (rest.map Sample.name)
    rw [← hnames] at this
    simpa using this
  · rw [intervalsFrom_last_name, getLast?_cons_of_ne_nil _ _ hne]
  · rw [hnames]; exact List.destutter'_is_chain' _ (fun a b : String => a ≠ b) _

/-- Witness for C4 on the batch `(active,0) (active,2) (inactive,4)`. -/
theorem AggregateSamples_names_witness :
    ∃ states,
      AggregateSamples [⟨"active", 0⟩, ⟨"active", 2⟩, ⟨"inactive", 4⟩] = .ok states ∧
      states.map State.name =
        List.destutter (fun a b => a ≠ b)
          ([(⟨"active", 0⟩ : Sample), ⟨"active", 2⟩, ⟨"inactive", 4⟩].map Sample.name) ∧
      states.length =
        transitions [⟨"active", 0⟩, ⟨"active", 2⟩, ⟨"inactive", 4⟩] + 1 ∧
      states.head?.map State.name =
        [(⟨"active", 0⟩ : Sample), ⟨"active", 2⟩, ⟨"inactive", 4⟩].head?.map Sample.name ∧
      states.getLast?.map State.name =
        [(⟨"active", 0⟩ : Sample), ⟨"active", 2⟩, ⟨"inactive", 4⟩].getLast?.map Sample.name ∧
      List.Chain' (fun a b => a ≠ b) (states.map State.name) :=
  AggregateSamples_names [⟨"active", 0⟩, ⟨"active", 2⟩, ⟨"inactive", 4⟩] (by decide)

/-! ## Keys of `AggState` -/

theorem GetKeyName_inj (a b suffix : String) (h : GetKeyName a suffix = GetKeyName b suffix) :
    a = b := by
  have h2 := congrArg String.data h
  simp only [GetKeyName, String.data_append] at h2
  exact String.ext (List.append_cancel_right h2)

theorem dur_ne_count (a b : String) :
    GetKeyName a DurFieldSuffix ≠ GetKeyName b CountFieldSuffix := by
  intro h
  have h2 := congrArg (fun s => s.data.getLast?) h
  simp [GetKeyName, DurFieldSuffix, CountFieldSuffix, String.data_append,
    List.getLast?_append] at h2

/-! ## One step of the fold -/

theorem foldState_other (agg : AggMap) (st : State) (k : String)
    (hd : k ≠ GetKeyName st.name DurFieldSuffix)
    (hc : k ≠ GetKeyName st.name CountFieldSuffix) :
    foldState agg st k = agg k := by
  cases h : agg (GetKeyName st.name DurFieldSuffix) <;>
    simp [foldState, h, AggMap.write, hd, hc]

theorem foldState_dur_isSome (agg : AggMap) (st : State) :
    foldState agg st (GetKeyName st.name DurFieldSuffix) ≠ none := by
  cases h : agg (GetKeyName st.name DurFieldSuffix) <;>
    simp [foldState, h, AggMap.write]

theorem foldState_read_count (agg : AggMap) (st : State) (name : String)
    (hpair : CountHasDur agg) :
    (foldState agg st).read (GetKeyName name CountFieldSuffix) =
      if st.name = name then add64 (agg.read (GetKeyName name CountFieldSuffix)) 1
      else agg.read (GetKeyName name CountFieldSuffix) := by
  have hcd : GetKeyName name CountFieldSuffix ≠ GetKeyName st.name DurFieldSuffix :=
    fun h => dur_ne_count _ _ h.symm
  by_cases hn : st.name = name
  · subst hn
    cases h : agg (GetKeyName st.name DurFieldSuffix) with
    | none =>
      have hc := hpair st.name h
      simp [foldState, h, AggMap.write, AggMap.read, hcd, hc, add64]
    | some v => simp [foldState, h, AggMap.write, AggMap.read, hcd]
  · have hcc : GetKeyName name CountFieldSuffix ≠ GetKeyName st.name CountFieldSuffix :=
      fun h => hn (GetKeyName_inj _ _ _ h).symm
    simp [AggMap.read, foldState_other agg st _ hcd hcc, hn]

theorem foldState_read_dur (agg : AggMap) (st : State) (name : String)
    (hd : st.duration < 2 ^ 64) :
    (foldState agg st).read (GetKeyName name DurFieldSuffix) =
      if st.name = name then add64 (agg.read (GetKeyName name DurFieldSuffix)) st.duration
      else agg.read (GetKeyName name DurFieldSuffix) := by
  by_cases hn : st.name = name
  · subst hn
    have hdc := dur_ne_count st.name st.name
    cases h : agg (GetKeyName st.name DurFieldSuffix) with
    | none =>
      simp [foldState, h, AggMap.write, AggMap.read, add64]
      omega
    | some v => simp [foldState, h, AggMap.write, AggMap.read, hdc]
  · have hdd : GetKeyName name DurFieldSuffix ≠ GetKeyName st.name DurFieldSuffix :=
      fun h => hn (GetKeyName_inj _ _ _ h).symm
    simp [AggMap.read, foldState_other agg st _ hdd (dur_ne_count _ _), hn]

theorem foldState_pair (agg : AggMap) (st : State) (hpair : CountHasDur agg) :
    CountHasDur (foldState agg st) := by
  intro name hnone
  by_cases hn : st.name = name
  · subst hn
    exact absurd hnone (foldState_dur_isSome agg st)
  · have hdd : GetKeyName name DurFieldSuffix ≠ GetKeyName st.name DurFieldSuffix :=
      fun h => hn (GetKeyName_inj _ _ _ h).symm
    have hcc : GetKeyName name CountFieldSuffix ≠ GetKeyName st.name CountFieldSuffix :=
      fun h => hn (GetKeyName_inj _ _ _ h).symm
    have hcd : GetKeyName name CountFieldSuffix ≠ GetKeyName st.name DurFieldSuffix :=
      fun h => dur_ne_count _ _ h.symm
    rw [foldState_other agg st _ hdd (dur_ne_count _ _)] at hnone
    rw [foldState_other agg st _ hcd hcc]
    exact hpair name hnone

theorem add64_lt (a b : Nat) : add64 a b < 2 ^ 64 := by
  unfold add64; omega

theorem foldState_wf (agg : AggMap) (st : State) (hwf : AggWellFormed agg)
    (hd : st.duration < 2 ^ 64) : AggWellFormed (foldState agg st) := by
  intro k v hk
  by_cases h1 : k = GetKeyName st.name DurFieldSuffix
  · subst h1
    cases h : agg (GetKeyName st.name DurFieldSuffix) with
    | none =>
      simp [foldState, h, AggMap.write] at hk
      omega
    | some w =>
      simp [foldState, h, AggMap.write] at hk
      rw [← hk]; exact add64_lt _ _
  · by_cases h2 : k = GetKeyName st.name CountFieldSuffix
    · subst h2
      cases h : agg (GetKeyName st.name DurFieldSuffix) with
      | none =>
        simp [foldState, h, AggMap.write, h1] at hk
        omega
      | some w =>
        simp [foldState, h, AggMap.write, h1] at hk
        rw [← hk]; exact add64_lt _ _
    · rw [foldState_other agg st k h1 h2] at hk
      exact hwf k v hk

theorem read_lt (agg : AggMap) (hwf : AggWellFormed agg) (k : String) :
    agg.read k < 2 ^ 64 := by
  unfold AggMap.read
  cases h : agg k with
  | none => simp
  | some v => simpa using hwf k v h

/-! ## The loop of `AggregateStates` -/

theorem foldl_foldState_other (states : List State) :
    ∀ (agg : AggMap) (k : String),
      (∀ st ∈ states, k ≠ GetKeyName st.name DurFieldSuffix ∧
        k ≠ GetKeyName st.name CountFieldSuffix) →
      states.foldl foldState agg k = agg k := by
  induction states with
  | nil => intro _ _ _; rfl
  | cons st rest ih =>
    intro agg k h
    rw [List.foldl_cons, ih (foldState agg st) k
      (fun x hx => h x (List.mem_cons_of_mem _ hx))]
    exact foldState_other agg st k (h st (by simp)).1 (h st (by simp)).2

theorem foldl_foldState_totals (states : List State) :
    ∀ (agg : AggMap), CountHasDur agg → AggWellFormed agg → StatesWellFormed states →
      ∀ name : String,
        (states.foldl foldState agg).read (GetKeyName name CountFieldSuffix) =
          (agg.read (GetKeyName name CountFieldSuffix) + visits name states) % 2 ^ 64 ∧
        (states.foldl foldState agg).read (GetKeyName name DurFieldSuffix) =
          (agg.read (GetKeyName name DurFieldSuffix) + timeIn name states) % 2 ^ 64 := by
  induction states with
  | nil =>
    intro agg _ hwf _ name
    have h1 := read_lt agg hwf (GetKeyName name CountFieldSuffix)
    have h2 := read_lt agg hwf (GetKeyName name DurFieldSuffix)
    simp only [visits, timeIn, totalDuration, List.filter_nil, List.length_nil, List.map_nil,
      List.sum_nil, List.foldl_nil, Nat.add_zero]
    constructor <;> omega
  | cons st rest ih =>
    intro agg hpair hwf hst name
    have hd : st.duration < 2 ^ 64 := hst st (by simp)
    have hrest : StatesWellFormed rest := fun x hx => hst x (List.mem_cons_of_mem _ hx)
    obtain ⟨ihc, ihd⟩ := ih (foldState agg st) (foldState_pair agg st hpair)
      (foldState_wf agg st hwf hd) hrest name
    rw [List.foldl_cons, ihc, ihd, foldState_read_count agg st name hpair,
      foldState_read_dur agg st name hd]
    by_cases hn : st.name = name
    · simp only [hn, if_true, visits, timeIn, totalDuration, add64, List.filter_cons,
        decide_True, List.length_cons, List.map_cons, List.sum_cons]
      constructor <;> omega
    · simp only [hn, if_false, visits, timeIn, totalDuration, List.filter_cons,
        decide_False]
      simp

theorem AggregateStates_single (s : Systemctl) (name : String) (d p : Nat) :
    AggregateStates s [{ name := name, duration := d }] p =
      some { s with
        AggState :=
          match s.AggState (GetKeyName name DurFieldSuffix) with
          | none =>
            (s.AggState.write (GetKeyName name DurFieldSuffix) (add64 p d)).write
              (GetKeyName name CountFieldSuffix) 1
          | some _ => s.AggState
        CurrentState := name
        CurrentStateDuration := add64 p d } := by
  simp [AggregateStates]

theorem AggregateStates_multi (s : Systemctl) (states : List State) (p : Nat)
    (hlen : 2 ≤ states.length) (last : State) (hlast : states.getLast? = some last) :
    AggregateStates s states p =
      some { s with
        AggState := states.foldl foldState s.AggState
        CurrentState := last.name
        CurrentStateDuration := last.duration } := by
  match states, hlen with
  | a :: b :: rest, _ =>
    have h1 : ¬ (rest.length + 1 + 1 = 1) := by omega
    simp only [AggregateStates, List.head?_cons, hlast, List.length_cons, h1, and_false,
      if_false]

theorem exists_getLast?_of_two_le (states : List State) (hlen : 2 ≤ states.length) :
    ∃ last, states.getLast? = some last := by
  have hne : states ≠ [] := by
    intro h; rw [h] at hlen; simp at hlen
  exact ⟨states.getLast hne, List.getLast?_eq_getLast _ hne⟩

theorem empty_pair : CountHasDur AggMap.empty := fun _ _ => rfl

theorem empty_wf : AggWellFormed AggMap.empty := by
  intro k v h; simp [AggMap.empty] at h

/-! ## Claims about `AggregateStates` -/

/-- C5: folding a batch of 2 or more intervals into a receiver whose map holds `uint64`
values and has a `_count` entry only where it has a `_dur` entry (as every map built by
the fold from the empty map does): for every state name, `<name>_count` afterwards is
its value before (0 if absent) plus the number of intervals of that name, and
`<name>_dur` afterwards is its value before (0 if absent) plus the sum of their
durations, in `uint64` arithmetic and hence exactly when the sum does not overflow;
repeated occurrences of a state all count, and the entries of a state that does not
occur in the batch are unchanged. -/
theorem AggregateStates_multi_totals (s : Systemctl) (states : List State) (p : Nat)
    (hlen : 2 ≤ states.length) (hpair : CountHasDur s.AggState)
    (hwf : AggWellFormed s.AggState) (hst : StatesWellFormed states) :
    ∃ s', AggregateStates s states p = some s' ∧
      ∀ name : String,
        s'.AggState.read (GetKeyName name CountFieldSuffix) =
          (s.AggState.read (GetKeyName name CountFieldSuffix) + visits name states) % 2 ^ 64 ∧
        s'.AggState.read (GetKeyName name DurFieldSuffix) =
          (s.AggState.read (GetKeyName name DurFieldSuffix) + timeIn name states) % 2 ^ 64 ∧
        (s.AggState.read (GetKeyName name CountFieldSuffix) + visits name states < 2 ^ 64 →
          s'.AggState.read (GetKeyName name CountFieldSuffix) =
            s.AggState.read (GetKeyName name CountFieldSuffix) + visits name states) ∧
        (s.AggState.read (GetKeyName name DurFieldSuffix) + timeIn name states < 2 ^ 64 →
          s'.AggState.read (GetKeyName name DurFieldSuffix) =
            s.AggState.read (GetKeyName name DurFieldSuffix) + timeIn name states) ∧
        ((∀ st ∈ states, st.name ≠ name) →
          s'.AggState (GetKeyName name CountFieldSuffix) =
            s.AggState (GetKeyName name CountFieldSuffix) ∧
          s'.AggState (GetKeyName name DurFieldSuffix) =
            s.AggState (GetKeyName name DurFieldSuffix)) := by
  obtain ⟨last, hlast⟩ := exists_getLast?_of_two_le states hlen
  refine ⟨_, AggregateStates_multi s states p hlen last hlast, ?_⟩
  intro name
  obtain ⟨hc, hd⟩ := foldl_foldState_totals states s.AggState hpair hwf hst name
  refine ⟨hc, hd, ?_, ?_, ?_⟩
  · intro h; rw [hc]; exact Nat.mod_eq_of_lt h
  · intro h; rw [hd]; exact Nat.mod_eq_of_lt h
  · intro hnot
    constructor
    · apply foldl_foldState_other
      intro st hst
      exact ⟨fun h => dur_ne_count _ _ h.symm,
        fun h => hnot st hst (GetKeyName_inj _ _ _ h).symm⟩
    · apply foldl_foldState_other
      intro st hst
      exact ⟨fun h => hnot st hst (GetKeyName_inj _ _ _ h).symm, dur_ne_count _ _⟩

/-- Witness for C5: the fourth batch of `TestAggregateSamples` folded into an empty map. -/
theorem AggregateStates_multi_totals_witness :
    ∃ s', AggregateStates (testReceiver "active" 2) testStates 2 = some s' ∧
      ∀ name : String,
        s'.AggState.read (GetKeyName name CountFieldSuffix) =
          ((testReceiver "active" 2).AggState.read (GetKeyName name CountFieldSuffix) +
            visits name testStates) % 2 ^ 64 ∧
        s'.AggState.read (GetKeyName name DurFieldSuffix) =
          ((testReceiver "active" 2).AggState.read (GetKeyName name DurFieldSuffix) +
            timeIn name testStates) % 2 ^ 64 ∧
        ((testReceiver "active" 2).AggState.read (GetKeyName name CountFieldSuffix) +
            visits name testStates < 2 ^ 64 →
          s'.AggState.read (GetKeyName name CountFieldSuffix) =
            (testReceiver "active" 2).AggState.read (GetKeyName name CountFieldSuffix) +
              visits name testStates) ∧
        ((testReceiver "active" 2).AggState.read (GetKeyName name DurFieldSuffix) +
            timeIn name testStates < 2 ^ 64 →
          s'.AggState.read (GetKeyName name DurFieldSuffix) =
            (testReceiver "active" 2).AggState.read (GetKeyName name DurFieldSuffix) +
              timeIn name testStates) ∧
        ((∀ st ∈ testStates, st.name ≠ name) →
          s'.AggState (GetKeyName name CountFieldSuffix) =
            (testReceiver "active" 2).AggState (GetKeyName name CountFieldSuffix) ∧
          s'.AggState (GetKeyName name DurFieldSuffix) =
            (testReceiver "active" 2).AggState (GetKeyName name DurFieldSuffix)) :=
  AggregateStates_multi_totals (testReceiver "active" 2) testStates 2 (by decide)
    empty_pair empty_wf (by decide)

/-- C6: after `AggregateStates` folds a batch of 2 or more intervals, `CurrentState` is
the name of the last interval and `CurrentStateDuration` is that interval's duration,
whatever prior duration was passed in; it is 0 when the intervals come from a batch of
samples whose last sample is a transition. -/
theorem AggregateStates_multi_current (s : Systemctl) (states : List State) (p : Nat)
    (hlen : 2 ≤ states.length) :
    ∃ last s', states.getLast? = some last ∧
      AggregateStates s states p = some s' ∧
      s'.CurrentState = last.name ∧
      s'.CurrentStateDuration = last.duration ∧
      (∀ samples pre prev lastSample, AggregateSamples samples = .ok states →
        samples = pre ++ [prev, lastSample] → prev.name ≠ lastSample.name →
        s'.CurrentState = lastSample.name ∧ s'.CurrentStateDuration = 0) := by
  obtain ⟨last, hlast⟩ := exists_getLast?_of_two_le states hlen
  refine ⟨last, _, hlast, AggregateStates_multi s states p hlen last hlast, rfl, rfl, ?_⟩
  intro samples pre prev lastSample hok hsplit hname
  obtain ⟨states', hok', hfin⟩ := AggregateSamples_final samples (pre ++ [prev]) []
    lastSample lastSample (by rw [hsplit]; simp) (by simp [hsplit]) (by simp)
    (by intro q hq; simp at hq; rw [← hq]; exact hname) (by simp)
  rw [hok] at hok'
  cases hok'
  rw [hlast] at hfin
  cases hfin
  exact ⟨rfl, sub64_self _⟩

/-- Witness for C6: the intervals of the batch `(active,0) (failed,2)` with prior
duration 8. -/
theorem AggregateStates_multi_current_witness :
    ∃ last s', [(⟨"active", 2⟩ : State), ⟨"failed", 0⟩].getLast? = some last ∧
      AggregateStates (testReceiver "active" 8) [⟨"active", 2⟩, ⟨"failed", 0⟩] 8 = some s' ∧
      s'.CurrentState = last.name ∧
      s'.CurrentStateDuration = last.duration ∧
      (∀ samples pre prev lastSample,
        AggregateSamples samples = .ok [⟨"active", 2⟩, ⟨"failed", 0⟩] →
        samples = pre ++ [prev, lastSample] → prev.name ≠ lastSample.name →
        s'.CurrentState = lastSample.name ∧ s'.CurrentStateDuration = 0) :=
  AggregateStates_multi_current (testReceiver "active" 8) [⟨"active", 2⟩, ⟨"failed", 0⟩] 8
    (by decide)

/-- C7: folding a single-interval batch `(name, d)` with prior duration `p`: afterwards
`CurrentState` is `name` and `CurrentStateDuration` is `p + d` (in `uint64` arithmetic,
hence exactly `p + d` without overflow); and if the state had no `_dur` entry before,
`<name>_dur` is set to that extended duration and `<name>_count` is set to 1. -/
theorem AggregateStates_single_first (s : Systemctl) (name : String) (d p : Nat) :
    ∃ s', AggregateStates s [{ name := name, duration := d }] p = some s' ∧
      s'.CurrentState = name ∧
      s'.CurrentStateDuration = (p + d) % 2 ^ 64 ∧
      (p + d < 2 ^ 64 → s'.CurrentStateDuration = p + d) ∧
      (s.AggState (GetKeyName name DurFieldSuffix) = none →
        s'.AggState (GetKeyName name DurFieldSuffix) = some s'.CurrentStateDuration ∧
        s'.AggState (GetKeyName name CountFieldSuffix) = some 1) := by
  refine ⟨_, AggregateStates_single s name d p, rfl, rfl, ?_, ?_⟩
  · intro h; exact Nat.mod_eq_of_lt h
  · intro h
    have hdc := dur_ne_count name name
    simp [h, AggMap.write, hdc, add64]

/-- Witness for C7: the first case of `TestAggregateSamples`, samples `(active,0)
(active,2)` with prior duration 10 on an empty map. -/
theorem AggregateStates_single_first_witness :
    ∃ s', AggregateSamples [⟨"active", 0⟩, ⟨"active", 2⟩] = .ok [⟨"active", 2⟩] ∧
      AggregateStates (testReceiver "active" 10) [⟨"active", 2⟩] 10 = some s' ∧
      s'.CurrentState = "active" ∧
      s'.CurrentStateDuration = 12 ∧
      s'.AggState "active_dur" = some 12 ∧
      s'.AggState "active_count" = some 1 :=
  match AggregateStates_single_first (testReceiver "active" 10) "active" 2 10 with
  | ⟨s', h1, h2, _, h4, h5⟩ =>
    ⟨s', rfl, h1, h2, h4 (by decide),
      (h5 rfl).1.trans (congrArg some (h4 (by decide))), (h5 rfl).2⟩

theorem foldBatches_single_existing (name : String) (ds : List Nat) :
    ∀ s : Systemctl, s.AggState (GetKeyName name DurFieldSuffix) ≠ none →
      ∃ sn, foldBatches s (ds.map fun d => [{ name := name, duration := d }]) = some sn ∧
        sn.AggState = s.AggState ∧
        sn.CurrentStateDuration % 2 ^ 64 = (s.CurrentStateDuration + ds.sum) % 2 ^ 64 ∧
        (ds ≠ [] → sn.CurrentStateDuration < 2 ^ 64) := by
  induction ds with
  | nil => intro s _; exact ⟨s, rfl, rfl, by simp, by simp⟩
  | cons d ds ih =>
    intro s hentry
    obtain ⟨v, hv⟩ := Option.ne_none_iff_exists'.mp hentry
    have hstep := AggregateStates_single s name d s.CurrentStateDuration
    simp only [hv] at hstep
    obtain ⟨sn, hsn, hagg, hcsd, hlt⟩ := ih
      { s with CurrentState := name
               CurrentStateDuration := add64 s.CurrentStateDuration d } hentry
    refine ⟨sn, ?_, hagg, ?_, ?_⟩
    · simp only [List.map_cons, foldBatches, hstep]
      exact hsn
    · simp only [add64] at hcsd
      simp only [List.sum_cons]
      omega
    · intro _
      by_cases hds : ds = []
      · subst hds
        simp only [List.map_nil, foldBatches] at hsn
        cases hsn
        exact add64_lt _ _
      · exact hlt hds

/-- C8: folding a single-interval batch `(name, d)` when the state already has an entry
does not increment its visit count: the whole map, and so `<name>_count`, is the same
after the fold as before, and only `CurrentStateDuration` is extended by `d`. The same
holds after any number of consecutive single-state cycles, each fold receiving the
`CurrentStateDuration` left by the one before. -/
theorem AggregateStates_single_existing (s : Systemctl) (name : String) (d p : Nat)
    (hentry : s.AggState (GetKeyName name DurFieldSuffix) ≠ none) :
    (∃ s', AggregateStates s [{ name := name, duration := d }] p = some s' ∧
      s'.AggState (GetKeyName name CountFieldSuffix) =
        s.AggState (GetKeyName name CountFieldSuffix) ∧
      s'.AggState = s.AggState ∧
      s'.CurrentState = name ∧
      s'.CurrentStateDuration = (p + d) % 2 ^ 64) ∧
    (∀ ds : List Nat, s.CurrentStateDuration < 2 ^ 64 →
      ∃ sn, foldBatches s (ds.map fun d => [{ name := name, duration := d }]) = some sn ∧
        sn.AggState (GetKeyName name CountFieldSuffix) =
          s.AggState (GetKeyName name CountFieldSuffix) ∧
        sn.AggState = s.AggState ∧
        sn.CurrentStateDuration = (s.CurrentStateDuration + ds.sum) % 2 ^ 64) := by
  constructor
  · obtain ⟨v, hv⟩ := Option.ne_none_iff_exists'.mp hentry
    have hstep := AggregateStates_single s name d p
    simp only [hv] at hstep
    exact ⟨_, hstep, rfl, rfl, rfl, rfl⟩
  · intro ds hcsd
    obtain ⟨sn, hsn, hagg, hmod, hlt⟩ := foldBatches_single_existing name ds s hentry
    refine ⟨sn, hsn, by rw [hagg], hagg, ?_⟩
    cases ds with
    | nil =>
      simp only [List.map_nil, foldBatches] at hsn
      cases hsn
      simp only [List.sum_nil, Nat.add_zero]
      omega
    | cons d' ds' =>
      have := hlt (by simp)
      omega

/-- Witness for C8: a receiver that already recorded `active`, folded with `(active, 2)`. -/
theorem AggregateStates_single_existing_witness :
    (∃ s', AggregateStates
        { testReceiver "active" 12 with
          AggState := (AggMap.empty.write "active_dur" 12).write "active_count" 1 }
        [{ name := "active", duration := 2 }] 12 = some s' ∧
      s'.AggState (GetKeyName "active" CountFieldSuffix) = some 1 ∧
      s'.AggState = (AggMap.empty.write "active_dur" 12).write "active_count" 1 ∧
      s'.CurrentState = "active" ∧
      s'.CurrentStateDuration = (12 + 2) % 2 ^ 64) ∧
    (∀ ds : List Nat, (12 : Nat) < 2 ^ 64 →
      ∃ sn, foldBatches
          { testReceiver "active" 12 with
            AggState := (AggMap.empty.write "active_dur" 12).write "active_count" 1 }
          (ds.map fun d => [{ name := "active", duration := d }]) = some sn ∧
        sn.AggState (GetKeyName "active" CountFieldSuffix) = some 1 ∧
        sn.AggState = (AggMap.empty.write "active_dur" 12).write "active_count" 1 ∧
        sn.CurrentStateDuration = (12 + ds.sum) % 2 ^ 64) :=
  AggregateStates_single_existing
    { testReceiver "active" 12 with
      AggState := (AggMap.empty.write "active_dur" 12).write "active_count" 1 }
    "active" 2 12 (by decide)

/-- C9, counterexample. After one cycle on `(active,0) (active,2)` from the receiver
built by `init`, the open state is `active` with `active_dur = 2`; the next batch
`(active,2) (active,4)` segments to the single interval `(active, 2)` and its fold
leaves `active_dur` at 2, not at 2 + 2. And on the receiver built by `init`, whose open
state is `unknown` with no entry, folding the single interval `(unknown, 2)` raises
`unknown_count` from 0 (absent) to 1. -/
theorem AggregateStates_continuation_counterexample :
    (∃ s s', cycle initial [⟨"active", 0⟩, ⟨"active", 2⟩] = some s ∧
      s.CurrentState = "active" ∧
      AggregateSamples [⟨"active", 2⟩, ⟨"active", 4⟩] = .ok [⟨"active", 2⟩] ∧
      AggregateStates s [⟨"active", 2⟩] s.CurrentStateDuration = some s' ∧
      s.AggState.read (GetKeyName "active" DurFieldSuffix) = 2 ∧
      s'.AggState.read (GetKeyName "active" DurFieldSuffix) = 2 ∧
      s'.AggState.read (GetKeyName "active" DurFieldSuffix) ≠
        s.AggState.read (GetKeyName "active" DurFieldSuffix) + 2) ∧
    (∃ t', initial.CurrentState = "unknown" ∧
      AggregateSamples [⟨"unknown", 0⟩, ⟨"unknown", 2⟩] = .ok [⟨"unknown", 2⟩] ∧
      AggregateStates initial [⟨"unknown", 2⟩] initial.CurrentStateDuration = some t' ∧
      initial.AggState.read (GetKeyName "unknown" CountFieldSuffix) = 0 ∧
      t'.AggState.read (GetKeyName "unknown" CountFieldSuffix) = 1 ∧
      ¬ t'.AggState.read (GetKeyName "unknown" CountFieldSuffix) ≤
        initial.AggState.read (GetKeyName "unknown" CountFieldSuffix)) :=
  ⟨⟨_, _, rfl, rfl, rfl, rfl, by decide, by decide, by decide⟩,
    ⟨_, rfl, rfl, rfl, by decide, by decide, by decide⟩⟩

/-- C9, amended: for every receiver and every batch that segments to a single interval
`(name, d)` with `name` the previously open `CurrentState`, folded as `Gather` does with
the carried `CurrentStateDuration`: the fold succeeds, `CurrentState` stays `name` and
`CurrentStateDuration` grows by `d` (in `uint64` arithmetic); if `<name>_dur` already has
an entry, `<name>_count` is not changed; if it has none, `<name>_count` becomes 1 and
`<name>_dur` becomes the extended `CurrentStateDuration`. -/
theorem AggregateStates_continuation (s : Systemctl) (name : String) (d : Nat)
    (hopen : s.CurrentState = name) :
    ∃ s', AggregateStates s [{ name := name, duration := d }] s.CurrentStateDuration =
        some s' ∧
      s'.CurrentState = s.CurrentState ∧
      s'.CurrentStateDuration = (s.CurrentStateDuration + d) % 2 ^ 64 ∧
      (s.AggState (GetKeyName name DurFieldSuffix) ≠ none →
        s'.AggState (GetKeyName name CountFieldSuffix) =
          s.AggState (GetKeyName name CountFieldSuffix)) ∧
      (s.AggState (GetKeyName name DurFieldSuffix) = none →
        s'.AggState (GetKeyName name CountFieldSuffix) = some 1 ∧
        s'.AggState (GetKeyName name DurFieldSuffix) =
          some ((s.CurrentStateDuration + d) % 2 ^ 64)) := by
  refine ⟨_, AggregateStates_single s name d s.CurrentStateDuration, hopen.symm, rfl, ?_, ?_⟩
  · intro h
    obtain ⟨v, hv⟩ := Option.ne_none_iff_exists'.mp h
    simp [hv]
  · intro h
    have hdc := dur_ne_count name name
    simp [h, AggMap.write, hdc, add64]

/-- Witness for C9, amended: the receiver built by `init` and the interval `(unknown, 2)`. -/
theorem AggregateStates_continuation_witness :
    initial.CurrentState = "unknown" ∧
    ∃ s', AggregateStates initial [{ name := "unknown", duration := 2 }]
        initial.CurrentStateDuration = some s' ∧
      s'.CurrentState = initial.CurrentState ∧
      s'.CurrentStateDuration = (initial.CurrentStateDuration + 2) % 2 ^ 64 ∧
      (initial.AggState (GetKeyName "unknown" DurFieldSuffix) ≠ none →
        s'.AggState (GetKeyName "unknown" CountFieldSuffix) =
          initial.AggState (GetKeyName "unknown" CountFieldSuffix)) ∧
      (initial.AggState (GetKeyName "unknown" DurFieldSuffix) = none →
        s'.AggState (GetKeyName "unknown" CountFieldSuffix) = some 1 ∧
        s'.AggState (GetKeyName "unknown" DurFieldSuffix) =
          some ((initial.CurrentStateDuration + 2) % 2 ^ 64)) :=
  ⟨rfl, AggregateStates_continuation initial "unknown" 2 rfl⟩

/-- C10, evaluation at the failing inputs, from the receiver built by `init`. The batch
`(active,0) (active,2) (active,4)` folded in one cycle gives `active_dur = 4`; split at
index 1 into `(active,0) (active,2)` and `(active,2) (active,4)` it gives `active_dur = 2`:
the second window's duration is missing. The batch `(active,0) (active,2) (failed,4)`
folded in one cycle gives `active_count = 1`; split at index 1 it gives
`active_count = 2`: the visit that spans the boundary is counted twice. -/
theorem cycle_split_diverges :
    (∃ whole s1 s2,
      cycle initial [⟨"active", 0⟩, ⟨"active", 2⟩, ⟨"active", 4⟩] = some whole ∧
      cycle initial [⟨"active", 0⟩, ⟨"active", 2⟩] = some s1 ∧
      cycle s1 [⟨"active", 2⟩, ⟨"active", 4⟩] = some s2 ∧
      whole.AggState (GetKeyName "active" DurFieldSuffix) = some 4 ∧
      s2.AggState (GetKeyName "active" DurFieldSuffix) = some 2 ∧
      whole.AggState (GetKeyName "active" CountFieldSuffix) = some 1 ∧
      s2.AggState (GetKeyName "active" CountFieldSuffix) = some 1) ∧
    (∃ whole s1 s2,
      cycle initial [⟨"active", 0⟩, ⟨"active", 2⟩, ⟨"failed", 4⟩] = some whole ∧
      cycle initial [⟨"active", 0⟩, ⟨"active", 2⟩] = some s1 ∧
      cycle s1 [⟨"active", 2⟩, ⟨"failed", 4⟩] = some s2 ∧
      whole.AggState (GetKeyName "active" CountFieldSuffix) = some 1 ∧
      s2.AggState (GetKeyName "active" CountFieldSuffix) = some 2 ∧
      whole.AggState (GetKeyName "active" DurFieldSuffix) = some 4 ∧
      s2.AggState (GetKeyName "active" DurFieldSuffix) = some 4) :=
  ⟨⟨_, _, _, rfl, rfl, rfl, by decide, by decide, by decide, by decide⟩,
    ⟨_, _, _, rfl, rfl, rfl, by decide, by decide, by decide, by decide⟩⟩

/-! ## Refinement of the specified segmentation -/

theorem specScanAll_intervals (rest : List Sample) :
    ∀ v : SpecVars,
      (specScanAll rest v).intervals = v.intervals ++ intervalsFrom v.currentState v.start rest := by
  induction rest with
  | nil => intro v; simp [specScanAll, intervalsFrom]
  | cons s rest ih =>
    intro v
    cases rest with
    | nil =>
      by_cases hc : s.name = v.currentState
      · simp [specScanAll, specScan, intervalsFrom, hc]
      · have hc' : ¬ v.currentState = s.name := fun h => hc h.symm
        simp [specScanAll, specScan, intervalsFrom, hc, hc']
    | cons s' rest =>
      rw [specScanAll, ih]
      by_cases hc : s.name = v.currentState
      · simp [specScan, intervalsFrom, hc]
      · have hc' : ¬ v.currentState = s.name := fun h => hc h.symm
        simp [specScan, intervalsFrom, hc, hc']

/-- C17: for every batch of at least 2 samples, `AggregateSamples` (whose run start
advances by `stateStartTime + stateTime` and whose loop checks for a transition a second
time on the last sample) returns exactly the interval list of the specified algorithm,
which sets `start` to the transition's timestamp and applies the trailing-sample rule.
No bound on the timestamps is assumed: subtraction wraps modulo `2 ^ 64` on both sides. -/
theorem AggregateSamples_refines_spec (samples : List Sample) (hlen : 2 ≤ samples.length) :
    ∃ states, AggregateSamples samples = .ok states ∧
      SpecIntervalSegmenter samples = .ok states := by
  obtain ⟨s0, rest, hne, rfl⟩ := exists_cons_of_two_le samples hlen
  refine ⟨_, AggregateSamples_cons s0 rest hne, ?_⟩
  cases rest with
  | nil => exact absurd rfl hne
  | cons s1 rest =>
    simp [SpecIntervalSegmenter, specScanAll_intervals]

/-- Witness for C17 on a batch whose second timestamp is below the first, so that the
subtraction wraps. -/
theorem AggregateSamples_refines_spec_witness :
    ∃ states,
      AggregateSamples [⟨"active", 5⟩, ⟨"failed", 2⟩, ⟨"failed", 9⟩] = .ok states ∧
      SpecIntervalSegmenter [⟨"active", 5⟩, ⟨"failed", 2⟩, ⟨"failed", 9⟩] = .ok states :=
  AggregateSamples_refines_spec [⟨"active", 5⟩, ⟨"failed", 2⟩, ⟨"failed", 9⟩] (by decide)

/-! ## Totality of the composition used by `Gather` -/

theorem AggregateSamples_ok_cons (samples : List Sample) (states : List State)
    (h : AggregateSamples samples = .ok states) :
    ∃ s0 rest, rest ≠ [] ∧ samples = s0 :: rest ∧
      states = intervalsFrom s0.name s0.timestamp rest := by
  by_cases hlen : 2 ≤ samples.length
  · obtain ⟨s0, rest, hne, rfl⟩ := exists_cons_of_two_le samples hlen
    rw [AggregateSamples_cons s0 rest hne] at h
    cases h
    exact ⟨s0, rest, hne, rfl, rfl⟩
  · have hlt : samples.length < 2 := by omega
    simp [AggregateSamples, hlt] at h

theorem AggregateStates_isSome (s : Systemctl) (states : List State) (p : Nat)
    (hne : states ≠ []) : ∃ s', AggregateStates s states p = some s' := by
  match states, hne with
  | [st], _ => exact ⟨_, AggregateStates_single s st.name st.duration p⟩
  | a :: b :: rest, _ =>
    obtain ⟨last, hlast⟩ := exists_getLast?_of_two_le (a :: b :: rest) (by simp)
    exact ⟨_, AggregateStates_multi s (a :: b :: rest) p (by simp) last hlast⟩

/-- C18: every successful result of `AggregateSamples` is a non-empty interval list, so
`AggregateStates` applied to it, as `Gather` does, reads `states[0]` and
`states[len(states)-1]` within range: it returns a receiver for every prior receiver
and every prior duration. -/
theorem AggregateStates_total_on_segmented (samples : List Sample) (states : List State)
    (hseg : AggregateSamples samples = .ok states) :
    states ≠ [] ∧
    (∃ first last, states.head? = some first ∧ states.getLast? = some last) ∧
    (∀ (s : Systemctl) (p : Nat), ∃ s', AggregateStates s states p = some s') ∧
    (∀ s : Systemctl, ∃ s', cycle s samples = some s') := by
  obtain ⟨s0, rest, hne, rfl, rfl⟩ := AggregateSamples_ok_cons samples states hseg
  have hnonempty := intervalsFrom_ne_nil rest s0.name s0.timestamp hne
  refine ⟨hnonempty, ?_, fun s p => AggregateStates_isSome s _ p hnonempty, ?_⟩
  · exact ⟨_, _, List.head?_eq_head hnonempty, List.getLast?_eq_getLast _ hnonempty⟩
  · intro s
    simp only [cycle, hseg]
    exact AggregateStates_isSome s _ _ hnonempty

/-- Witness for C18 on the batch `(active,0) (failed,2)`. -/
theorem AggregateStates_total_on_segmented_witness :
    ([⟨"active", 2⟩, ⟨"failed", 0⟩] : List State) ≠ [] ∧
    (∃ first last, ([⟨"active", 2⟩, ⟨"failed", 0⟩] : List State).head? = some first ∧
      ([⟨"active", 2⟩, ⟨"failed", 0⟩] : List State).getLast? = some last) ∧
    (∀ (s : Systemctl) (p : Nat),
      ∃ s', AggregateStates s [⟨"active", 2⟩, ⟨"failed", 0⟩] p = some s') ∧
    (∀ s : Systemctl, ∃ s', cycle s [⟨"active", 0⟩, ⟨"failed", 2⟩] = some s') :=
  AggregateStates_total_on_segmented [⟨"active", 0⟩, ⟨"failed", 2⟩]
    [⟨"active", 2⟩, ⟨"failed", 0⟩] rfl

/-! ## Key names -/

/-- C20: `GetKeyName name suffix` is the concatenation `name ++ suffix`, and the derived
keys never collide: equal `_dur` keys come from equal state names, likewise for
`_count` keys, and a `_dur` key is never a `_count` key. -/
theorem GetKeyName_no_collision :
    (∀ name suffix : String, GetKeyName name suffix = name ++ suffix) ∧
    (∀ a b : String, GetKeyName a DurFieldSuffix = GetKeyName b DurFieldSuffix → a = b) ∧
    (∀ a b : String, GetKeyName a CountFieldSuffix = GetKeyName b CountFieldSuffix → a = b) ∧
    (∀ a b : String, GetKeyName a DurFieldSuffix ≠ GetKeyName b CountFieldSuffix) ∧
    (∀ a b : String, a ≠ b →
      GetKeyName a DurFieldSuffix ≠ GetKeyName b DurFieldSuffix ∧
      GetKeyName a CountFieldSuffix ≠ GetKeyName b CountFieldSuffix ∧
      GetKeyName a DurFieldSuffix ≠ GetKeyName b CountFieldSuffix ∧
      GetKeyName a CountFieldSuffix ≠ GetKeyName b DurFieldSuffix) :=
  ⟨fun _ _ => rfl,
    fun a b h => GetKeyName_inj a b _ h,
    fun a b h => GetKeyName_inj a b _ h,
    fun a b => dur_ne_count a b,
    fun a b hab =>
      ⟨fun h => hab (GetKeyName_inj a b _ h), fun h => hab (GetKeyName_inj a b _ h),
        dur_ne_count a b, fun h => dur_ne_count b a h.symm⟩⟩

/-- Witness for C20: the keys of the states `active` and `failed`. -/
theorem GetKeyName_no_collision_witness :
    GetKeyName "active" DurFieldSuffix = "active" ++ "_dur" ∧
    GetKeyName "active" DurFieldSuffix ≠ GetKeyName "failed" DurFieldSuffix ∧
    GetKeyName "active" CountFieldSuffix ≠ GetKeyName "failed" CountFieldSuffix ∧
    GetKeyName "active" DurFieldSuffix ≠ GetKeyName "failed" CountFieldSuffix ∧
    GetKeyName "active" CountFieldSuffix ≠ GetKeyName "failed" DurFieldSuffix :=
  ⟨GetKeyName_no_collision.1 "active" "_dur",
    GetKeyName_no_collision.2.2.2.2 "active" "failed" (by decide)⟩

/-! ## Claims about `Gather` -/

/-- C14: when the batch delivered to `Gather` has fewer than 2 samples, `Gather` returns
the error of `AggregateSamples`, the sink holds the records it held before, and the
receiver, with `AggState`, `CurrentState` and `CurrentStateDuration`, is the one before
the call. -/
theorem Gather_insufficient_samples (s : Systemctl) (samples : List Sample)
    (acc : Accumulator) (hlen : samples.length < 2) :
    ∃ err, AggregateSamples samples = .error err ∧
      Gather s samples acc = some { receiver := s, acc := acc, err := some err } ∧
      ∀ r, Gather s samples acc = some r →
        r.err = some err ∧ r.acc = acc ∧ r.receiver.AggState = s.AggState ∧
        r.receiver.CurrentState = s.CurrentState ∧
        r.receiver.CurrentStateDuration = s.CurrentStateDuration := by
  have herr : AggregateSamples samples = .error "2 or more samples needed for aggregation" := by
    simp [AggregateSamples, hlen]
  have hg : Gather s samples acc =
      some ⟨s, acc, some "2 or more samples needed for aggregation"⟩ := by
    simp [Gather, herr]
  refine ⟨_, herr, hg, ?_⟩
  intro r hr
  rw [hg] at hr
  cases hr
  exact ⟨rfl, rfl, rfl, rfl, rfl⟩

/-- Witness for C14: a 1-sample batch delivered to a receiver that already recorded
`active`. -/
theorem Gather_insufficient_samples_witness :
    ∃ err, AggregateSamples [⟨"active", 4⟩] = .error err ∧
      Gather { testReceiver "active" 12 with
               AggState := (AggMap.empty.write "active_dur" 12).write "active_count" 1 }
          [⟨"active", 4⟩] [] =
        some { receiver := { testReceiver "active" 12 with
                 AggState := (AggMap.empty.write "active_dur" 12).write "active_count" 1 },
               acc := [], err := some err } ∧
      ∀ r, Gather { testReceiver "active" 12 with
               AggState := (AggMap.empty.write "active_dur" 12).write "active_count" 1 }
          [⟨"active", 4⟩] [] = some r →
        r.err = some err ∧ r.acc = [] ∧
        r.receiver.AggState = (AggMap.empty.write "active_dur" 12).write "active_count" 1 ∧
        r.receiver.CurrentState = "active" ∧
        r.receiver.CurrentStateDuration = 12 :=
  Gather_insufficient_samples
    { testReceiver "active" 12 with
      AggState := (AggMap.empty.write "active_dur" 12).write "active_count" 1 }
    [⟨"active", 4⟩] [] (by decide)

theorem dur_ne_fixed (name : String) :
    GetKeyName name DurFieldSuffix ≠ "current_state" ∧
    GetKeyName name DurFieldSuffix ≠ "current_state_time" := by
  constructor <;> intro h <;>
  · have h2 := congrArg (fun s => s.data.getLast?) h
    simp [GetKeyName, DurFieldSuffix, String.data_append, List.getLast?_append] at h2

theorem count_ne_fixed (name : String) :
    GetKeyName name CountFieldSuffix ≠ "current_state" ∧
    GetKeyName name CountFieldSuffix ≠ "current_state_time" := by
  constructor <;> intro h <;>
  · have h2 := congrArg (fun s => s.data.getLast?) h
    simp [GetKeyName, CountFieldSuffix, String.data_append, List.getLast?_append] at h2

theorem keys_ne_fixed (agg : AggMap) (hkeys : KeysFromStates agg) (k : String)
    (hk : agg k ≠ none) : k ≠ "current_state" ∧ k ≠ "current_state_time" := by
  obtain ⟨name, h | h⟩ := hkeys k hk
  · rw [h]; exact dur_ne_fixed name
  · rw [h]; exact count_ne_fixed name

theorem foldState_keys (agg : AggMap) (st : State) (hkeys : KeysFromStates agg) :
    KeysFromStates (foldState agg st) := by
  intro k hk
  by_cases h1 : k = GetKeyName st.name DurFieldSuffix
  · exact ⟨st.name, Or.inl h1⟩
  · by_cases h2 : k = GetKeyName st.name CountFieldSuffix
    · exact ⟨st.name, Or.inr h2⟩
    · rw [foldState_other agg st k h1 h2] at hk
      exact hkeys k hk

theorem foldl_foldState_keys (states : List State) :
    ∀ agg : AggMap, KeysFromStates agg → KeysFromStates (states.foldl foldState agg) := by
  induction states with
  | nil => intro agg h; exact h
  | cons st rest ih => intro agg h; exact ih _ (foldState_keys agg st h)

theorem AggregateStates_keys (s s' : Systemctl) (states : List State) (p : Nat)
    (hkeys : KeysFromStates s.AggState) (hfold : AggregateStates s states p = some s') :
    KeysFromStates s'.AggState := by
  match states with
  | [] => simp [AggregateStates] at hfold
  | [st] =>
    rw [AggregateStates_single s st.name st.duration p] at hfold
    cases hfold
    cases h : s.AggState (GetKeyName st.name DurFieldSuffix) with
    | some v => simpa [h] using hkeys
    | none =>
      intro k hk
      simp only [h] at hk
      by_cases h1 : k = GetKeyName st.name DurFieldSuffix
      · exact ⟨st.name, Or.inl h1⟩
      · by_cases h2 : k = GetKeyName st.name CountFieldSuffix
        · exact ⟨st.name, Or.inr h2⟩
        · simp only [AggMap.write, h1, h2, if_false] at hk
          exact hkeys k hk
  | a :: b :: rest =>
    obtain ⟨last, hlast⟩ := exists_getLast?_of_two_le (a :: b :: rest) (by simp)
    rw [AggregateStates_multi s (a :: b :: rest) p (by simp) last hlast] at hfold
    cases hfold
    exact foldl_foldState_keys _ _ hkeys

theorem empty_keys : KeysFromStates AggMap.empty := by
  intro k hk; exact absurd rfl hk

/-- C15: for every successful `Gather` cycle on a receiver whose `AggState` keys are
`_dur` and `_count` keys (as they are from the empty map on), the sink receives one more
record, `service_config_state`, whose field map consists of exactly `current_state` =
`CurrentState` after the fold, `current_state_time` = `CurrentStateDuration` after the
fold, and every key of `AggState` after the fold with its value; no `AggState` key is
one of the two fixed keys, since each is a `_dur` or a `_count` key. -/
theorem Gather_fields (s : Systemctl) (samples : List Sample) (acc : Accumulator)
    (r : GatherResult) (hkeys : KeysFromStates s.AggState)
    (hok : Gather s samples acc = some r) (herr : r.err = none) :
    ∃ m, r.acc = acc ++ [m] ∧
      cycle s samples = some r.receiver ∧
      m.measurement = "service_config_state" ∧
      m.tags "resource" = some s.ServiceName ∧
      m.fields "current_state" = some (.str r.receiver.CurrentState) ∧
      m.fields "current_state_time" = some (.uint r.receiver.CurrentStateDuration) ∧
      (∀ k v, r.receiver.AggState k = some v → m.fields k = some (.uint v)) ∧
      (∀ k, m.fields k ≠ none →
        k = "current_state" ∨ k = "current_state_time" ∨ r.receiver.AggState k ≠ none) ∧
      (∀ k, r.receiver.AggState k ≠ none →
        (∃ name : String,
          k = GetKeyName name DurFieldSuffix ∨ k = GetKeyName name CountFieldSuffix) ∧
        k ≠ "current_state" ∧ k ≠ "current_state_time") := by
  unfold Gather at hok
  cases hseg : AggregateSamples samples with
  | error e =>
    simp only [hseg] at hok
    cases hok
    simp at herr
  | ok states =>
    simp only [hseg] at hok
    cases hfold : AggregateStates s states s.CurrentStateDuration with
    | none => simp [hfold] at hok
    | some s' =>
      simp only [hfold] at hok
      cases hok
      have hkeys' := AggregateStates_keys s s' states _ hkeys hfold
      have hname : s'.ServiceName = s.ServiceName := by
        obtain ⟨s0, rest, hne, rfl, rfl⟩ := AggregateSamples_ok_cons samples states hseg
        match hst : intervalsFrom s0.name s0.timestamp rest with
        | [] => exact absurd hst (intervalsFrom_ne_nil rest _ _ hne)
        | [st] =>
          rw [hst, AggregateStates_single s st.name st.duration _] at hfold
          cases hfold; rfl
        | a :: b :: l =>
          obtain ⟨last, hlast⟩ := exists_getLast?_of_two_le (a :: b :: l) (by simp)
          rw [hst, AggregateStates_multi s (a :: b :: l) _ (by simp) last hlast] at hfold
          cases hfold; rfl
      have hcs : s'.AggState "current_state" = none := by
        by_contra hk; exact (keys_ne_fixed _ hkeys' _ hk).1 rfl
      have hct : s'.AggState "current_state_time" = none := by
        by_contra hk; exact (keys_ne_fixed _ hkeys' _ hk).2 rfl
      refine ⟨_, rfl, ?_, rfl, ?_, ?_, ?_, ?_, ?_, ?_⟩
      · simp [cycle, hseg, hfold]
      · simp [hname]
      · simp [gatherFields, hcs]
      · simp [gatherFields, hct]
      · intro k v hk
        have hk' : s'.AggState k = some v := hk
        simp [gatherFields, hk']
      · intro k hk
        cases hagg : s'.AggState k with
        | some v => right; right; simp
        | none =>
          have hk' : gatherFields s' k ≠ none := hk
          simp only [gatherFields, hagg] at hk'
          have hk := hk'
          by_cases h1 : k = "current_state_time"
          · right; left; exact h1
          · by_cases h2 : k = "current_state"
            · left; exact h2
            · simp [h1, h2] at hk
      · intro k hk
        exact ⟨hkeys' k hk, keys_ne_fixed _ hkeys' k hk⟩

/-- Witness for C15: the first `Gather` of the receiver built by `init`, on the batch
`(active,0) (active,2)`. -/
theorem Gather_fields_witness :
    ∃ r, Gather initial [⟨"active", 0⟩, ⟨"active", 2⟩] [] = some r ∧ r.err = none ∧
      ∃ m, r.acc = [] ++ [m] ∧
        cycle initial [⟨"active", 0⟩, ⟨"active", 2⟩] = some r.receiver ∧
        m.measurement = "service_config_state" ∧
        m.tags "resource" = some initial.ServiceName ∧
        m.fields "current_state" = some (.str r.receiver.CurrentState) ∧
        m.fields "current_state_time" = some (.uint r.receiver.CurrentStateDuration) ∧
        (∀ k v, r.receiver.AggState k = some v → m.fields k = some (.uint v)) ∧
        (∀ k, m.fields k ≠ none →
          k = "current_state" ∨ k = "current_state_time" ∨ r.receiver.AggState k ≠ none) ∧
        (∀ k, r.receiver.AggState k ≠ none →
          (∃ name : String,
            k = GetKeyName name DurFieldSuffix ∨ k = GetKeyName name CountFieldSuffix) ∧
          k ≠ "current_state" ∧ k ≠ "current_state_time") :=
  ⟨_, rfl, rfl, Gather_fields initial [⟨"active", 0⟩, ⟨"active", 2⟩] [] _ empty_keys rfl rfl⟩

/-! ## Claims about `CollectSamples` -/

theorem runLoop_ticks (ticks : List Sample) :
    ∀ l : SamplingLoop, l.status = .running →
      runLoop l (ticks.map LoopEvent.tick) = { l with samples := l.samples ++ ticks } := by
  induction ticks with
  | nil => intro l _; simp [runLoop]
  | cons t ticks ih =>
    intro l hl
    have hstep : loopStep l (.tick t) = { l with samples := l.samples ++ [t] } := by
      simp [loopStep, hl]
    have := ih { l with samples := l.samples ++ [t] } hl
    simp only [runLoop, List.map_cons, List.foldl_cons, hstep] at this ⊢
    rw [this]
    simp

/-- C12: carry-over across the handshake. From any running state of the loop with a
non-empty buffer, a Collect delivers the whole buffer; after any number of Ticks the
next Collect delivers a batch whose first sample is the last sample of the batch
delivered before (the same name and timestamp), followed by the samples of those Ticks. -/
theorem CollectSamples_carry_over (l : SamplingLoop) (ticks : List Sample)
    (hrun : l.status = .running) (hne : l.samples ≠ []) :
    ∃ earlier later lastSample,
      (runLoop l (LoopEvent.collect :: (ticks.map LoopEvent.tick ++ [LoopEvent.collect]))).out =
        l.out ++ [earlier, later] ∧
      earlier = l.samples ∧
      earlier.getLast? = some lastSample ∧
      later.head? = some lastSample ∧
      later = lastSample :: ticks ∧
      (runLoop l (LoopEvent.collect ::
        (ticks.map LoopEvent.tick ++ [LoopEvent.collect]))).status = .running := by
  obtain ⟨lastSample, hlast⟩ : ∃ x, l.samples.getLast? = some x :=
    ⟨l.samples.getLast hne, List.getLast?_eq_getLast _ hne⟩
  have h1 : loopStep l .collect =
      { samples := [lastSample], out := l.out ++ [l.samples], status := .running } := by
    simp [loopStep, hrun, hlast]
  have h2 := runLoop_ticks ticks
    { samples := [lastSample], out := l.out ++ [l.samples], status := .running } rfl
  have h3 : (lastSample :: ticks).getLast? ≠ none := by
    simp [List.getLast?_eq_none_iff]
  obtain ⟨final, hfinal⟩ := Option.ne_none_iff_exists'.mp h3
  have h4 : runLoop l (LoopEvent.collect :: (ticks.map LoopEvent.tick ++ [LoopEvent.collect])) =
      { samples := [final], out := (l.out ++ [l.samples]) ++ [lastSample :: ticks],
        status := .running } := by
    have : runLoop l (LoopEvent.collect ::
        (ticks.map LoopEvent.tick ++ [LoopEvent.collect])) =
        runLoop (runLoop (loopStep l .collect) (ticks.map LoopEvent.tick))
          [LoopEvent.collect] := by
      simp [runLoop, List.foldl_append]
    rw [this, h1, h2]
    simp [runLoop, loopStep, hfinal]
  rw [h4]
  exact ⟨l.samples, lastSample :: ticks, lastSample, by simp, rfl, hlast, rfl, rfl, rfl⟩

/-- Witness for C12: the loop after two Ticks, then Collect, one Tick, Collect. -/
theorem CollectSamples_carry_over_witness :
    ∃ earlier later lastSample,
      (runLoop (CollectSamples [.tick ⟨"active", 0⟩, .tick ⟨"active", 2⟩])
        (LoopEvent.collect ::
          (([⟨"failed", 4⟩] : List Sample).map LoopEvent.tick ++ [LoopEvent.collect]))).out =
        (CollectSamples [.tick ⟨"active", 0⟩, .tick ⟨"active", 2⟩]).out ++ [earlier, later] ∧
      earlier = (CollectSamples [.tick ⟨"active", 0⟩, .tick ⟨"active", 2⟩]).samples ∧
      earlier.getLast? = some lastSample ∧
      later.head? = some lastSample ∧
      later = lastSample :: [⟨"failed", 4⟩] ∧
      (runLoop (CollectSamples [.tick ⟨"active", 0⟩, .tick ⟨"active", 2⟩])
        (LoopEvent.collect ::
          (([⟨"failed", 4⟩] : List Sample).map LoopEvent.tick ++
            [LoopEvent.collect]))).status = .running :=
  CollectSamples_carry_over (CollectSamples [.tick ⟨"active", 0⟩, .tick ⟨"active", 2⟩])
    [⟨"failed", 4⟩] (by decide) (by decide)

/-- C13, evaluation at the failing input: a Collect serviced before the first Tick sends
the empty buffer on `out` and then panics on `samples[len(samples)-1]`; the buffer is
still empty. After one Tick the same step leaves the one-sample buffer and keeps
running. -/
theorem CollectSamples_collect_before_tick :
    CollectSamples [.collect] = { samples := [], out := [[]], status := .panicked } ∧
    ([] : List Sample).getLast? = none ∧
    CollectSamples [.tick ⟨"active", 0⟩, .collect] =
      { samples := [⟨"active", 0⟩], out := [[⟨"active", 0⟩]], status := .running } :=
  ⟨by decide, rfl, by decide⟩

/-! ## The continuation test of `AggregateStates` -/

theorem sub64_lt (a b : Nat) : sub64 a b < 2 ^ 64 := by
  unfold sub64; omega

theorem intervalsFrom_wf (rest : List Sample) :
    ∀ (cur : String) (start : Nat), StatesWellFormed (intervalsFrom cur start rest) := by
  induction rest with
  | nil => intro _ _ st hst; simp [intervalsFrom] at hst
  | cons s rest ih =>
    intro cur start st hst
    cases rest with
    | nil =>
      by_cases hc : cur = s.name
      · simp [intervalsFrom, hc] at hst
        rw [hst]; exact sub64_lt _ _
      · simp [intervalsFrom, hc] at hst
        rcases hst with h | h
        · rw [h]; exact sub64_lt _ _
        · rw [h]; simp
    | cons s' rest =>
      by_cases hc : cur = s.name
      · simp only [intervalsFrom, hc, ne_eq, not_true_eq_false, if_false] at hst
        exact ih s.name start st hst
      · simp only [intervalsFrom, hc, ne_eq, not_false_eq_true, if_true,
          List.mem_cons] at hst
        rcases hst with h | h
        · rw [h]; exact sub64_lt _ _
        · exact ih s.name s.timestamp st h

theorem AggregateSamples_wf (samples : List Sample) (states : List State)
    (h : AggregateSamples samples = .ok states) : StatesWellFormed states := by
  obtain ⟨s0, rest, _, _, rfl⟩ := AggregateSamples_ok_cons samples states h
  exact intervalsFrom_wf rest s0.name s0.timestamp

theorem AggregateStates_ignores_current (s : Systemctl) (states : List State) (p : Nat)
    (c : String) :
    (AggregateStates { s with CurrentState := c } states p).map
        (fun r => (r.AggState, r.CurrentState, r.CurrentStateDuration)) =
      (AggregateStates s states p).map
        (fun r => (r.AggState, r.CurrentState, r.CurrentStateDuration)) := by
  unfold AggregateStates
  cases states.head? <;> cases states.getLast? <;> simp

/-- C16, counterexample. A receiver with an empty `AggState` whose tracked state is
`failed` with duration 8 folds the single interval `(active, 2)` with prior duration 8:
the continuation path is taken although `active` is not the tracked state, and the 8
units of `failed` are added, `CurrentStateDuration = 10` and `active_dur = 10`. -/
theorem AggregateStates_continuation_mismatch :
    ∃ s', (testReceiver "failed" 8).CurrentState ≠ "active" ∧
      AggregateSamples [⟨"active", 100⟩, ⟨"active", 102⟩] = .ok [⟨"active", 2⟩] ∧
      AggregateStates (testReceiver "failed" 8) [⟨"active", 2⟩]
        (testReceiver "failed" 8).CurrentStateDuration = some s' ∧
      s'.CurrentState = "active" ∧
      s'.CurrentStateDuration = 8 + 2 ∧
      s'.AggState (GetKeyName "active" DurFieldSuffix) = some (8 + 2) ∧
      s'.CurrentStateDuration ≠ 2 :=
  ⟨_, by decide, rfl, rfl, rfl, by decide, by decide, by decide⟩

/-- C16, amended: `AggregateStates` takes the continuation path exactly when the batch
has exactly one interval, and it never reads the `CurrentState` tracked before. For a
single interval `(name, d)` and prior duration `p`, `CurrentStateDuration` becomes
`p + d` (in `uint64` arithmetic) and a missing `<name>_dur` entry is set to that value,
whatever the tracked state was; for 2 or more intervals the prior duration is not
added. On the receiver built by `init`, `Gather` passes the prior duration 0, so the
first single-interval cycle gives `CurrentStateDuration = d` and `<name>_dur = d`. -/
theorem AggregateStates_continuation_iff_single (s : Systemctl) (states : List State)
    (p : Nat) (hne : states ≠ []) :
    ∃ last s', states.getLast? = some last ∧
      AggregateStates s states p = some s' ∧
      (states.length = 1 →
        s'.CurrentStateDuration = (p + last.duration) % 2 ^ 64 ∧
        (s.AggState (GetKeyName last.name DurFieldSuffix) = none →
          s'.AggState (GetKeyName last.name DurFieldSuffix) =
            some ((p + last.duration) % 2 ^ 64))) ∧
      (2 ≤ states.length → s'.CurrentStateDuration = last.duration) ∧
      (∀ c : String, ∃ r, AggregateStates { s with CurrentState := c } states p = some r ∧
        r.AggState = s'.AggState ∧ r.CurrentState = s'.CurrentState ∧
        r.CurrentStateDuration = s'.CurrentStateDuration) ∧
      (∀ (samples : List Sample) (name : String) (d : Nat),
        AggregateSamples samples = .ok [{ name := name, duration := d }] →
        ∃ r, cycle initial samples = some r ∧ r.CurrentState = name ∧
          r.CurrentStateDuration = d ∧
          r.AggState (GetKeyName name DurFieldSuffix) = some d) := by
  have hinit : ∀ (samples : List Sample) (name : String) (d : Nat),
      AggregateSamples samples = .ok [{ name := name, duration := d }] →
      ∃ r, cycle initial samples = some r ∧ r.CurrentState = name ∧
        r.CurrentStateDuration = d ∧
        r.AggState (GetKeyName name DurFieldSuffix) = some d := by
    intro samples name d hseg
    have hd : d < 2 ^ 64 := AggregateSamples_wf samples _ hseg ⟨name, d⟩ (by simp)
    have hdc := dur_ne_count name name
    have hfold := AggregateStates_single initial name d initial.CurrentStateDuration
    have hcycle : cycle initial samples = AggregateStates initial
        [{ name := name, duration := d }] initial.CurrentStateDuration := by
      simp only [cycle, hseg]
    rw [hfold] at hcycle
    refine ⟨_, hcycle, rfl, ?_, ?_⟩
    · simp [initial, add64]; omega
    · simp [initial, AggMap.empty, AggMap.write, hdc, add64]; omega
  have hcur : ∀ (s' : Systemctl) (c : String), AggregateStates s states p = some s' →
      ∃ r, AggregateStates { s with CurrentState := c } states p = some r ∧
        r.AggState = s'.AggState ∧ r.CurrentState = s'.CurrentState ∧
        r.CurrentStateDuration = s'.CurrentStateDuration := by
    intro s' c hs'
    have h := AggregateStates_ignores_current s states p c
    rw [hs'] at h
    cases hr : AggregateStates { s with CurrentState := c } states p with
    | none => simp [hr] at h
    | some r =>
      simp only [hr, Option.map_some', Option.some.injEq, Prod.mk.injEq] at h
      exact ⟨r, rfl, h.1, h.2.1, h.2.2⟩
  match states, hne with
  | [st], _ =>
    have hfold := AggregateStates_single s st.name st.duration p
    refine ⟨st, _, rfl, hfold, ?_, ?_, fun c => hcur _ c hfold, hinit⟩
    · intro _
      refine ⟨rfl, ?_⟩
      intro habs
      have hdc := dur_ne_count st.name st.name
      simp [habs, AggMap.write, hdc, add64]
    · intro h; simp at h
  | a :: b :: rest, _ =>
    obtain ⟨last, hlast⟩ := exists_getLast?_of_two_le (a :: b :: rest) (by simp)
    have hfold := AggregateStates_multi s (a :: b :: rest) p (by simp) last hlast
    refine ⟨last, _, hlast, hfold, ?_, ?_, fun c => hcur _ c hfold, hinit⟩
    · intro h; simp at h
    · intro _; rfl

/-- Witness for C16, amended: the receiver built by `init` and the interval `(active, 2)`. -/
theorem AggregateStates_continuation_iff_single_witness :
    ∃ last s', ([⟨"active", 2⟩] : List State).getLast? = some last ∧
      AggregateStates initial [⟨"active", 2⟩] 0 = some s' ∧
      (([⟨"active", 2⟩] : List State).length = 1 →
        s'.CurrentStateDuration = (0 + last.duration) % 2 ^ 64 ∧
        (initial.AggState (GetKeyName last.name DurFieldSuffix) = none →
          s'.AggState (GetKeyName last.name DurFieldSuffix) =
            some ((0 + last.duration) % 2 ^ 64))) ∧
      (2 ≤ ([⟨"active", 2⟩] : List State).length → s'.CurrentStateDuration = last.duration) ∧
      (∀ c : String, ∃ r,
        AggregateStates { initial with CurrentState := c } [⟨"active", 2⟩] 0 = some r ∧
        r.AggState = s'.AggState ∧ r.CurrentState = s'.CurrentState ∧
        r.CurrentStateDuration = s'.CurrentStateDuration) ∧
      (∀ (samples : List Sample) (name : String) (d : Nat),
        AggregateSamples samples = .ok [{ name := name, duration := d }] →
        ∃ r, cycle initial samples = some r ∧ r.CurrentState = name ∧
          r.CurrentStateDuration = d ∧
          r.AggState (GetKeyName name DurFieldSuffix) = some d) :=
  AggregateStates_continuation_iff_single initial [⟨"active", 2⟩] 0 (by decide)

/-! ## Invariants of the fold -/

theorem AggregateStates_cases (s s' : Systemctl) (states : List State) (p : Nat)
    (h : AggregateStates s states p = some s') :
    (∃ st, states = [st] ∧
      s'.AggState = firstVisit s.AggState st.name (add64 p st.duration) ∧
      s'.CurrentState = st.name ∧ s'.CurrentStateDuration = add64 p st.duration) ∨
    (2 ≤ states.length ∧ ∃ last, states.getLast? = some last ∧
      s'.AggState = states.foldl foldState s.AggState ∧
      s'.CurrentState = last.name ∧ s'.CurrentStateDuration = last.duration) := by
  match states with
  | [] => simp [AggregateStates] at h
  | [st] =>
    rw [AggregateStates_single s st.name st.duration p] at h
    cases h
    exact Or.inl ⟨st, rfl, rfl, rfl, rfl⟩
  | a :: b :: rest =>
    obtain ⟨last, hlast⟩ := exists_getLast?_of_two_le (a :: b :: rest) (by simp)
    rw [AggregateStates_multi s (a :: b :: rest) p (by simp) last hlast] at h
    cases h
    exact Or.inr ⟨by simp, last, hlast, rfl, rfl, rfl⟩

theorem firstVisit_other (agg : AggMap) (name : String) (v : Nat) (k : String)
    (hd : k ≠ GetKeyName name DurFieldSuffix) (hc : k ≠ GetKeyName name CountFieldSuffix) :
    firstVisit agg name v k = agg k := by
  cases h : agg (GetKeyName name DurFieldSuffix) <;> simp [firstVisit, h, AggMap.write, hd, hc]

theorem firstVisit_keeps (agg : AggMap) (name : String) (v : Nat) (k : String)
    (hk : agg k ≠ none) : firstVisit agg name v k ≠ none := by
  cases h : agg (GetKeyName name DurFieldSuffix) with
  | some w => simpa [firstVisit, h] using hk
  | none =>
    simp only [firstVisit, h, AggMap.write]
    split
    · simp
    · split
      · simp
      · exact hk

theorem firstVisit_dur (agg : AggMap) (name : String) (v : Nat) :
    firstVisit agg name v (GetKeyName name DurFieldSuffix) ≠ none := by
  have hdc := dur_ne_count name name
  cases h : agg (GetKeyName name DurFieldSuffix) <;> simp [firstVisit, h, AggMap.write, hdc]

theorem firstVisit_count (agg : AggMap) (name : String) (v : Nat)
    (hpair : agg (GetKeyName name DurFieldSuffix) ≠ none →
      agg (GetKeyName name CountFieldSuffix) ≠ none) :
    firstVisit agg name v (GetKeyName name CountFieldSuffix) ≠ none := by
  cases h : agg (GetKeyName name DurFieldSuffix) with
  | none => simp [firstVisit, h, AggMap.write]
  | some w =>
    have := hpair (by simp [h])
    simpa [firstVisit, h] using this

theorem firstVisit_pair (agg : AggMap) (name : String) (v : Nat) (hpair : CountHasDur agg) :
    CountHasDur (firstVisit agg name v) := by
  intro n hnone
  by_cases hn : n = name
  · subst hn
    exact absurd hnone (firstVisit_dur agg n v)
  · have hdd : GetKeyName n DurFieldSuffix ≠ GetKeyName name DurFieldSuffix :=
      fun h => hn (GetKeyName_inj _ _ _ h)
    have hcc : GetKeyName n CountFieldSuffix ≠ GetKeyName name CountFieldSuffix :=
      fun h => hn (GetKeyName_inj _ _ _ h)
    have hcd : GetKeyName n CountFieldSuffix ≠ GetKeyName name DurFieldSuffix :=
      fun h => dur_ne_count _ _ h.symm
    rw [firstVisit_other agg name v _ hdd (dur_ne_count _ _)] at hnone
    rw [firstVisit_other agg name v _ hcd hcc]
    exact hpair n hnone

theorem firstVisit_wf (agg : AggMap) (name : String) (v : Nat) (hwf : AggWellFormed agg)
    (hv : v < 2 ^ 64) : AggWellFormed (firstVisit agg name v) := by
  intro k w hk
  cases h : agg (GetKeyName name DurFieldSuffix) with
  | some u =>
    simp only [firstVisit, h] at hk
    exact hwf k w hk
  | none =>
    simp only [firstVisit, h, AggMap.write] at hk
    split at hk
    · cases hk; omega
    · split at hk
      · cases hk; exact hv
      · exact hwf k w hk

theorem firstVisit_mono (agg : AggMap) (name : String) (v : Nat) (hpair : CountHasDur agg)
    (k : String) : agg.read k ≤ (firstVisit agg name v).read k := by
  cases h : agg (GetKeyName name DurFieldSuffix) with
  | some u => simp [firstVisit, h]
  | none =>
    by_cases h1 : k = GetKeyName name DurFieldSuffix
    · subst h1
      simp [AggMap.read, h]
    · by_cases h2 : k = GetKeyName name CountFieldSuffix
      · subst h2
        simp [AggMap.read, hpair name h]
      · rw [AggMap.read, AggMap.read, firstVisit_other agg name v k h1 h2]

theorem foldState_keeps (agg : AggMap) (st : State) (k : String) (hk : agg k ≠ none) :
    foldState agg st k ≠ none := by
  by_cases h1 : k = GetKeyName st.name DurFieldSuffix
  · subst h1; exact foldState_dur_isSome agg st
  · by_cases h2 : k = GetKeyName st.name CountFieldSuffix
    · subst h2
      cases h : agg (GetKeyName st.name DurFieldSuffix) <;>
        simp [foldState, h, AggMap.write, h1]
    · rw [foldState_other agg st k h1 h2]; exact hk

theorem foldl_foldState_keeps (states : List State) :
    ∀ (agg : AggMap) (k : String), agg k ≠ none → states.foldl foldState agg k ≠ none := by
  induction states with
  | nil => intro _ _ h; exact h
  | cons st rest ih => intro agg k h; exact ih _ k (foldState_keeps agg st k h)

theorem foldl_foldState_pair (states : List State) :
    ∀ agg : AggMap, CountHasDur agg → CountHasDur (states.foldl foldState agg) := by
  induction states with
  | nil => intro _ h; exact h
  | cons st rest ih => intro agg h; exact ih _ (foldState_pair agg st h)

theorem foldl_foldState_wf (states : List State) :
    ∀ agg : AggMap, AggWellFormed agg → StatesWellFormed states →
      AggWellFormed (states.foldl foldState agg) := by
  induction states with
  | nil => intro _ h _; exact h
  | cons st rest ih =>
    intro agg h hst
    exact ih _ (foldState_wf agg st h (hst st (by simp)))
      (fun x hx => hst x (List.mem_cons_of_mem _ hx))

theorem foldl_foldState_mono (states : List State) (agg : AggMap) (hpair : CountHasDur agg)
    (hwf : AggWellFormed agg) (hst : StatesWellFormed states) (hno : NoOverflow agg states)
    (k : String) : agg.read k ≤ (states.foldl foldState agg).read k := by
  by_cases hex : ∃ st ∈ states, k = GetKeyName st.name DurFieldSuffix ∨
      k = GetKeyName st.name CountFieldSuffix
  · obtain ⟨st, _, hk | hk⟩ := hex
    · obtain ⟨_, hd⟩ := foldl_foldState_totals states agg hpair hwf hst st.name
      have := (hno st.name).2
      rw [hk, hd, Nat.mod_eq_of_lt this]
      omega
    · obtain ⟨hc, _⟩ := foldl_foldState_totals states agg hpair hwf hst st.name
      have := (hno st.name).1
      rw [hk, hc, Nat.mod_eq_of_lt this]
      omega
  · have hother : ∀ st ∈ states, k ≠ GetKeyName st.name DurFieldSuffix ∧
        k ≠ GetKeyName st.name CountFieldSuffix := by
      intro st hst'
      constructor
      · intro h; exact hex ⟨st, hst', Or.inl h⟩
      · intro h; exact hex ⟨st, hst', Or.inr h⟩
    rw [AggMap.read, AggMap.read, foldl_foldState_other states agg k hother]

theorem AggregateStates_inv (s s' : Systemctl) (states : List State) (p : Nat)
    (hpair : CountHasDur s.AggState) (hwf : AggWellFormed s.AggState)
    (hst : StatesWellFormed states) (h : AggregateStates s states p = some s') :
    CountHasDur s'.AggState ∧ AggWellFormed s'.AggState := by
  rcases AggregateStates_cases s s' states p h with
    ⟨st, _, hagg, _, _⟩ | ⟨_, last, _, hagg, _, _⟩
  · rw [hagg]
    exact ⟨firstVisit_pair _ _ _ hpair, firstVisit_wf _ _ _ hwf (add64_lt _ _)⟩
  · rw [hagg]
    exact ⟨foldl_foldState_pair _ _ hpair, foldl_foldState_wf _ _ hwf hst⟩

theorem foldRun_inv (run : List (List State × Nat)) :
    ∀ s : Systemctl, CountHasDur s.AggState → AggWellFormed s.AggState →
      (∀ b ∈ run, ∃ samples, AggregateSamples samples = .ok b.1) →
      ∃ s', foldRun s run = some s' ∧ CountHasDur s'.AggState ∧ AggWellFormed s'.AggState := by
  induction run with
  | nil => intro s hp hw _; exact ⟨s, rfl, hp, hw⟩
  | cons b rest ih =>
    intro s hp hw hrun
    obtain ⟨states, p⟩ := b
    obtain ⟨samples, hseg⟩ := hrun (states, p) (by simp)
    obtain ⟨s0, rest0, hne, _, hstates⟩ := AggregateSamples_ok_cons samples states hseg
    have hnonempty : states ≠ [] := by
      rw [hstates]; exact intervalsFrom_ne_nil rest0 _ _ hne
    obtain ⟨s1, hs1⟩ := AggregateStates_isSome s states p hnonempty
    obtain ⟨hp1, hw1⟩ := AggregateStates_inv s s1 states p hp hw
      (AggregateSamples_wf samples states hseg) hs1
    obtain ⟨s', hs', hres⟩ := ih s1 hp1 hw1 (fun b hb => hrun b (List.mem_cons_of_mem _ hb))
    exact ⟨s', by simp [foldRun, hs1, hs'], hres⟩

/-- C11: on an engine instance that starts with an empty `AggState`, after any sequence
of `AggregateStates` folds of batches produced by `AggregateSamples`, a further such
fold removes no key, and when it overflows neither a count nor a duration every value
of `AggState` after it is at least the value before (an absent key reading 0). -/
theorem AggState_monotone (s0 : Systemctl) (run : List (List State × Nat))
    (states : List State) (p : Nat) (hempty : s0.AggState = AggMap.empty)
    (hrun : ∀ b ∈ run, ∃ samples, AggregateSamples samples = .ok b.1)
    (hseg : ∃ samples, AggregateSamples samples = .ok states) :
    ∃ s s', foldRun s0 run = some s ∧ AggregateStates s states p = some s' ∧
      (∀ k, s.AggState k ≠ none → s'.AggState k ≠ none) ∧
      (NoOverflow s.AggState states → ∀ k, s.AggState.read k ≤ s'.AggState.read k) := by
  obtain ⟨s, hs, hp, hw⟩ := foldRun_inv run s0 (by rw [hempty]; exact empty_pair)
    (by rw [hempty]; exact empty_wf) hrun
  obtain ⟨samples, hseg⟩ := hseg
  obtain ⟨c0, rest0, hne, _, hstates⟩ := AggregateSamples_ok_cons samples states hseg
  have hnonempty : states ≠ [] := by
    rw [hstates]; exact intervalsFrom_ne_nil rest0 _ _ hne
  obtain ⟨s', hs'⟩ := AggregateStates_isSome s states p hnonempty
  refine ⟨s, s', hs, hs', ?_, ?_⟩
  · intro k hk
    rcases AggregateStates_cases s s' states p hs' with
      ⟨st, _, hagg, _, _⟩ | ⟨_, last, _, hagg, _, _⟩
    · rw [hagg]; exact firstVisit_keeps _ _ _ k hk
    · rw [hagg]; exact foldl_foldState_keeps _ _ k hk
  · intro hno k
    rcases AggregateStates_cases s s' states p hs' with
      ⟨st, _, hagg, _, _⟩ | ⟨_, last, _, hagg, _, _⟩
    · rw [hagg]; exact firstVisit_mono _ _ _ hp k
    · rw [hagg]
      exact foldl_foldState_mono states _ hp hw (AggregateSamples_wf samples states hseg) hno k

/-- Witness for C11: from the receiver built by `init`, the fold of `(active,0)
(active,2)` followed by the fold of `(active,2) (failed,4)`. -/
theorem AggState_monotone_witness :
    ∃ s s', foldRun initial [([⟨"active", 2⟩], 0)] = some s ∧
      AggregateStates s [⟨"active", 2⟩, ⟨"failed", 0⟩] 2 = some s' ∧
      (∀ k, s.AggState k ≠ none → s'.AggState k ≠ none) ∧
      (NoOverflow s.AggState [⟨"active", 2⟩, ⟨"failed", 0⟩] →
        ∀ k, s.AggState.read k ≤ s'.AggState.read k) :=
  AggState_monotone initial [([⟨"active", 2⟩], 0)] [⟨"active", 2⟩, ⟨"failed", 0⟩] 2 rfl
    (by
      intro b hb
      have hb' : b = ([⟨"active", 2⟩], 0) := by simpa using hb
      rw [hb']
      exact ⟨[⟨"active", 0⟩, ⟨"active", 2⟩], rfl⟩)
    ⟨[⟨"active", 2⟩, ⟨"failed", 4⟩], rfl⟩

/-! ## Pairing of the `_dur` and `_count` entries -/

theorem foldState_count_isSome (agg : AggMap) (st : State) :
    foldState agg st (GetKeyName st.name CountFieldSuffix) ≠ none := by
  have hcd : GetKeyName st.name CountFieldSuffix ≠ GetKeyName st.name DurFieldSuffix :=
    fun h => dur_ne_count _ _ h.symm
  cases h : agg (GetKeyName st.name DurFieldSuffix) <;>
    simp [foldState, h, AggMap.write, hcd]

theorem foldState_wellPaired (agg : AggMap) (st : State) (hpair : WellPaired agg) :
    WellPaired (foldState agg st) := by
  intro name
  by_cases hn : name = st.name
  · subst hn
    exact ⟨fun _ => foldState_count_isSome agg _, fun _ => foldState_dur_isSome agg _⟩
  · have hdd : GetKeyName name DurFieldSuffix ≠ GetKeyName st.name DurFieldSuffix :=
      fun h => hn (GetKeyName_inj _ _ _ h)
    have hcc : GetKeyName name CountFieldSuffix ≠ GetKeyName st.name CountFieldSuffix :=
      fun h => hn (GetKeyName_inj _ _ _ h)
    have hcd : GetKeyName name CountFieldSuffix ≠ GetKeyName st.name DurFieldSuffix :=
      fun h => dur_ne_count _ _ h.symm
    rw [foldState_other agg st _ hdd (dur_ne_count _ _), foldState_other agg st _ hcd hcc]
    exact hpair name

theorem foldl_foldState_wellPaired (states : List State) :
    ∀ agg : AggMap, WellPaired agg → WellPaired (states.foldl foldState agg) := by
  induction states with
  | nil => intro _ h; exact h
  | cons st rest ih => intro agg h; exact ih _ (foldState_wellPaired agg st h)

theorem firstVisit_wellPaired (agg : AggMap) (name : String) (v : Nat)
    (hpair : WellPaired agg) : WellPaired (firstVisit agg name v) := by
  intro n
  by_cases hn : n = name
  · subst hn
    exact ⟨fun _ => firstVisit_count agg n v (hpair n).mp, fun _ => firstVisit_dur agg n v⟩
  · have hdd : GetKeyName n DurFieldSuffix ≠ GetKeyName name DurFieldSuffix :=
      fun h => hn (GetKeyName_inj _ _ _ h)
    have hcc : GetKeyName n CountFieldSuffix ≠ GetKeyName name CountFieldSuffix :=
      fun h => hn (GetKeyName_inj _ _ _ h)
    have hcd : GetKeyName n CountFieldSuffix ≠ GetKeyName name DurFieldSuffix :=
      fun h => dur_ne_count _ _ h.symm
    rw [firstVisit_other agg name v _ hdd (dur_ne_count _ _),
      firstVisit_other agg name v _ hcd hcc]
    exact hpair n

theorem foldl_foldState_mem (states : List State) :
    ∀ (agg : AggMap) (st : State), st ∈ states →
      states.foldl foldState agg (GetKeyName st.name DurFieldSuffix) ≠ none := by
  induction states with
  | nil => intro _ _ h; simp at h
  | cons a rest ih =>
    intro agg st hst
    rcases List.mem_cons.mp hst with h | h
    · subst h
      exact foldl_foldState_keeps rest _ _ (foldState_dur_isSome agg st)
    · exact ih _ st h

theorem AggregateStates_current_entry (s s' : Systemctl) (states : List State) (p : Nat)
    (h : AggregateStates s states p = some s') :
    s'.AggState (GetKeyName s'.CurrentState DurFieldSuffix) ≠ none := by
  rcases AggregateStates_cases s s' states p h with
    ⟨st, _, hagg, hcur, _⟩ | ⟨_, last, hlast, hagg, hcur, _⟩
  · rw [hagg, hcur]; exact firstVisit_dur _ _ _
  · rw [hagg, hcur]
    exact foldl_foldState_mem states _ last (List.mem_of_getLast?_eq_some hlast)

theorem AggregateStates_wellPaired (s s' : Systemctl) (states : List State) (p : Nat)
    (hpair : WellPaired s.AggState) (h : AggregateStates s states p = some s') :
    WellPaired s'.AggState := by
  rcases AggregateStates_cases s s' states p h with
    ⟨st, _, hagg, _, _⟩ | ⟨_, last, _, hagg, _, _⟩
  · rw [hagg]; exact firstVisit_wellPaired _ _ _ hpair
  · rw [hagg]; exact foldl_foldState_wellPaired _ _ hpair

theorem foldState_read_count_le (agg : AggMap) (st : State) (name : String) :
    (foldState agg st).read (GetKeyName name CountFieldSuffix) ≤
      agg.read (GetKeyName name CountFieldSuffix) + (if st.name = name then 1 else 0) := by
  have hcd : GetKeyName name CountFieldSuffix ≠ GetKeyName st.name DurFieldSuffix :=
    fun h => dur_ne_count _ _ h.symm
  by_cases hn : st.name = name
  · subst hn
    cases h : agg (GetKeyName st.name DurFieldSuffix) with
    | none => simp [foldState, h, AggMap.write, AggMap.read, hcd]
    | some v =>
      simp only [foldState, h, AggMap.write, AggMap.read, hcd, if_false, if_true,
        Option.getD_some, add64]
      exact Nat.mod_le _ _
  · have hcc : GetKeyName name CountFieldSuffix ≠ GetKeyName st.name CountFieldSuffix :=
      fun h => hn (GetKeyName_inj _ _ _ h).symm
    simp [AggMap.read, foldState_other agg st _ hcd hcc, hn]

theorem foldState_countsPositive (agg : AggMap) (st : State) (hpos : CountsPositive agg)
    (hfit : agg.read (GetKeyName st.name CountFieldSuffix) + 1 < 2 ^ 64) :
    CountsPositive (foldState agg st) := by
  intro name c hc
  have hcd : GetKeyName name CountFieldSuffix ≠ GetKeyName st.name DurFieldSuffix :=
    fun h => dur_ne_count _ _ h.symm
  by_cases hn : name = st.name
  · subst hn
    cases h : agg (GetKeyName st.name DurFieldSuffix) with
    | none =>
      simp [foldState, h, AggMap.write, hcd] at hc
      omega
    | some v =>
      simp [foldState, h, AggMap.write, hcd, add64] at hc
      omega
  · have hcc : GetKeyName name CountFieldSuffix ≠ GetKeyName st.name CountFieldSuffix :=
      fun h => hn (GetKeyName_inj _ _ _ h)
    rw [foldState_other agg st _ hcd hcc] at hc
    exact hpos name c hc

theorem foldl_foldState_countsPositive (states : List State) :
    ∀ agg : AggMap, CountsPositive agg → CountsFit agg states →
      CountsPositive (states.foldl foldState agg) := by
  induction states with
  | nil => intro _ h _; exact h
  | cons st rest ih =>
    intro agg hpos hfit
    have hst : agg.read (GetKeyName st.name CountFieldSuffix) + 1 < 2 ^ 64 := by
      have := hfit st.name
      simp only [visits, List.filter_cons, decide_True, if_true, List.length_cons] at this
      omega
    refine ih _ (foldState_countsPositive agg st hpos hst) ?_
    intro name
    have h1 := foldState_read_count_le agg st name
    have h2 := hfit name
    by_cases hn : st.name = name
    · simp only [hn, if_true, visits, List.filter_cons, decide_True,
        List.length_cons] at h1 h2 ⊢
      omega
    · simp only [hn, if_false, visits, List.filter_cons, decide_False] at h1 h2 ⊢
      simp only [Bool.false_eq_true, if_false] at h2
      omega

theorem firstVisit_countsPositive (agg : AggMap) (name : String) (v : Nat)
    (hpos : CountsPositive agg) : CountsPositive (firstVisit agg name v) := by
  intro n c hc
  cases h : agg (GetKeyName name DurFieldSuffix) with
  | some u =>
    simp only [firstVisit, h] at hc
    exact hpos n c hc
  | none =>
    simp only [firstVisit, h, AggMap.write] at hc
    split at hc
    · cases hc; omega
    · split at hc
      · cases hc
        rename_i h1 h2
        exact absurd h2.symm (dur_ne_count _ _)
      · exact hpos n c hc

theorem AggregateStates_countsPositive (s s' : Systemctl) (states : List State) (p : Nat)
    (hpos : CountsPositive s.AggState) (hfit : CountsFit s.AggState states)
    (h : AggregateStates s states p = some s') : CountsPositive s'.AggState := by
  rcases AggregateStates_cases s s' states p h with
    ⟨st, _, hagg, _, _⟩ | ⟨_, last, _, hagg, _, _⟩
  · rw [hagg]; exact firstVisit_countsPositive _ _ _ hpos
  · rw [hagg]; exact foldl_foldState_countsPositive _ _ hpos hfit

theorem foldRun_wellPaired (run : List (List State × Nat)) :
    ∀ s : Systemctl, WellPaired s.AggState → (∀ b ∈ run, b.1 ≠ []) →
      ∃ s', foldRun s run = some s' ∧ WellPaired s'.AggState ∧
        (run ≠ [] → s'.AggState (GetKeyName s'.CurrentState DurFieldSuffix) ≠ none) ∧
        (CountsPositive s.AggState → CountsFitRun s run → CountsPositive s'.AggState) := by
  induction run with
  | nil => intro s hp _; exact ⟨s, rfl, hp, fun h => absurd rfl h, fun h _ => h⟩
  | cons b rest ih =>
    intro s hp hne
    obtain ⟨states, p⟩ := b
    obtain ⟨s1, hs1⟩ := AggregateStates_isSome s states p (hne (states, p) (by simp))
    have hp1 := AggregateStates_wellPaired s s1 states p hp hs1
    obtain ⟨s', hs', hp', hcur, hpos⟩ := ih s1 hp1
      (fun b hb => hne b (List.mem_cons_of_mem _ hb))
    refine ⟨s', by simp [foldRun, hs1, hs'], hp', ?_, ?_⟩
    · intro _
      by_cases hrest : rest = []
      · subst hrest
        simp only [foldRun] at hs'
        cases hs'
        exact AggregateStates_current_entry s s1 states p hs1
      · exact hcur hrest
    · intro hpos0 hfit
      simp only [CountsFitRun] at hfit
      exact hpos (AggregateStates_countsPositive s s1 states p hpos0 hfit.1 hs1)
        (hfit.2 s1 hs1)

theorem empty_wellPaired : WellPaired AggMap.empty := by
  intro name; simp [AggMap.empty]

theorem empty_countsPositive : CountsPositive AggMap.empty := by
  intro name c h; simp [AggMap.empty] at h

/-- C19: starting from an empty `AggState`, after any sequence of `AggregateStates` folds
on non-empty interval lists every fold succeeds and the map is well-paired: for every
state name `<name>_dur` is present exactly when `<name>_count` is, so the presence test
on the `_dur` key gives the same answer as one on the `_count` key; after at least one
fold the state named by `CurrentState` has an entry; and when no fold overflows a count,
every present count is at least 1. -/
theorem AggState_well_paired (s0 : Systemctl) (run : List (List State × Nat))
    (hempty : s0.AggState = AggMap.empty) (hne : ∀ b ∈ run, b.1 ≠ []) :
    ∃ s, foldRun s0 run = some s ∧
      (∀ name : String,
        s.AggState (GetKeyName name DurFieldSuffix) ≠ none ↔
          s.AggState (GetKeyName name CountFieldSuffix) ≠ none) ∧
      (∀ name : String,
        (s.AggState (GetKeyName name DurFieldSuffix)).isSome =
          (s.AggState (GetKeyName name CountFieldSuffix)).isSome) ∧
      (run ≠ [] →
        s.AggState (GetKeyName s.CurrentState DurFieldSuffix) ≠ none ∧
        s.AggState (GetKeyName s.CurrentState CountFieldSuffix) ≠ none) ∧
      (CountsFitRun s0 run →
        ∀ (name : String) (c : Nat),
          s.AggState (GetKeyName name CountFieldSuffix) = some c → 1 ≤ c) := by
  obtain ⟨s, hs, hp, hcur, hpos⟩ := foldRun_wellPaired run s0
    (by rw [hempty]; exact empty_wellPaired) hne
  refine ⟨s, hs, hp, ?_, ?_, ?_⟩
  · intro name
    have := hp name
    cases h1 : s.AggState (GetKeyName name DurFieldSuffix) <;>
      cases h2 : s.AggState (GetKeyName name CountFieldSuffix) <;>
      simp [h1, h2] at this ⊢
  · intro hrun
    exact ⟨hcur hrun, (hp _).mp (hcur hrun)⟩
  · intro hfit
    exact hpos (by rw [hempty]; exact empty_countsPositive) hfit

/-- Witness for C19: the receiver built by `init`, folded with `(active, 2)` and then
with `(active, 2) (failed, 0)`. -/
theorem AggState_well_paired_witness :
    ∃ s, foldRun initial [([⟨"active", 2⟩], 0), ([⟨"active", 2⟩, ⟨"failed", 0⟩], 2)] =
        some s ∧
      (∀ name : String,
        s.AggState (GetKeyName name DurFieldSuffix) ≠ none ↔
          s.AggState (GetKeyName name CountFieldSuffix) ≠ none) ∧
      (∀ name : String,
        (s.AggState (GetKeyName name DurFieldSuffix)).isSome =
          (s.AggState (GetKeyName name CountFieldSuffix)).isSome) ∧
      (([([⟨"active", 2⟩], 0), ([⟨"active", 2⟩, ⟨"failed", 0⟩], 2)] :
          List (List State × Nat)) ≠ [] →
        s.AggState (GetKeyName s.CurrentState DurFieldSuffix) ≠ none ∧
        s.AggState (GetKeyName s.CurrentState CountFieldSuffix) ≠ none) ∧
      (CountsFitRun initial [([⟨"active", 2⟩], 0), ([⟨"active", 2⟩, ⟨"failed", 0⟩], 2)] →
        ∀ (name : String) (c : Nat),
          s.AggState (GetKeyName name CountFieldSuffix) = some c → 1 ≤ c) :=
  AggState_well_paired initial [([⟨"active", 2⟩], 0), ([⟨"active", 2⟩, ⟨"failed", 0⟩], 2)]
    rfl (by decide)

end SystemctlPlugin
